import Mathlib

/-!
Verification of the typed, edge-featured CRF feature encoder
(`pystruct/models/node_type_edge_feature_graph_crf.py`).

The numeric scalar is an arbitrary commutative semiring `R` (the Python code
uses machine floats; every operation in the encoder is addition and
multiplication, so the development is stated over any `CommSemiring` and
concrete evaluations use `ℤ`).

Two-dimensional numpy arrays are embedded as `Mat R`: explicit row/column
counts plus a total entry function.  This keeps the shape of an empty array
(e.g. `np.empty((0, 7))`) representable, which the encoder relies on.

Methods inherited from the `TypedCRF` base class (`typed_crf.py`) are not part
of the given source tree; each such definition is marked
`Modelled from the spec:` and follows the specification's description of the
collaborator contract.
-/

set_option linter.unusedSectionVars false

namespace PyStruct

/-- Decidable equality for `Except`, used to evaluate concrete runs of the
fallible operations. -/
instance {ε α : Type} [DecidableEq ε] [DecidableEq α] : DecidableEq (Except ε α) := fun x y =>
  match x, y with
  | .ok a, .ok b =>
      if h : a = b then isTrue (by rw [h]) else isFalse (fun hc => by cases hc; exact h rfl)
  | .error a, .error b =>
      if h : a = b then isTrue (by rw [h]) else isFalse (fun hc => by cases hc; exact h rfl)
  | .ok _, .error _ => isFalse (fun hc => by cases hc)
  | .error _, .ok _ => isFalse (fun hc => by cases hc)

/-- Matrix: a numpy 2-d array, with explicit shape and a (total) entry
function.  Entries outside the shape are irrelevant. -/
structure Mat (R : Type) where
  rows : ℕ
  cols : ℕ
  ent : ℕ → ℕ → R

variable {R : Type} [CommSemiring R]

/-- Transpose (`a.T`). -/
def Mat.transpose (a : Mat R) : Mat R :=
  ⟨a.cols, a.rows, fun i j => a.ent j i⟩

/-- Matrix product (`np.dot`): contract the columns of `a` with the rows
of `b` (meaningful when `a.cols = b.rows`). -/
def Mat.matmul (a b : Mat R) : Mat R :=
  ⟨a.rows, b.cols, fun i j => ∑ k ∈ Finset.range a.cols, a.ent i k * b.ent k j⟩

/-- Submatrix `a[i0:i1, j0:j1]` with numpy's clipping of slice bounds to the
array shape. -/
def Mat.sub (a : Mat R) (i0 i1 j0 j1 : ℕ) : Mat R :=
  ⟨min i1 a.rows - min i0 a.rows, min j1 a.cols - min j0 a.cols,
   fun i j => a.ent (min i0 a.rows + i) (min j0 a.cols + j)⟩

/-- Row-major flattening (`a.ravel()`). -/
def Mat.ravel (a : Mat R) : List R :=
  (List.range a.rows).flatMap fun i => (List.range a.cols).map fun j => a.ent i j

/-- Reshape of a 2-d array into shape `(r, c)`; fails when the sizes
disagree, exactly as `np.reshape` does. -/
def Mat.reshape (a : Mat R) (r c : ℕ) : Except String (Mat R) :=
  if a.rows * a.cols = r * c then
    .ok ⟨r, c, fun i j => a.ent ((i * c + j) / a.cols) ((i * c + j) % a.cols)⟩
  else .error "ValueError: cannot reshape array"

/-- The all-zero `r` by `c` matrix (`np.zeros`, also `np.empty((0,0))`). -/
def zerosM (R : Type) [CommSemiring R] (r c : ℕ) : Mat R :=
  ⟨r, c, fun _ _ => (0 : R)⟩

/-- Model parameters of `NodeTypeEdgeFeatureGraphCRF.__init__`: number of node
types, states per type, features per type, the `n_types` by `n_types`
edge-feature-count matrix, and the `bPW_std` class attribute (set to `true` in
the source) selecting the multiplication order of the pairwise accumulation. -/
structure Model where
  n_types : ℕ
  l_n_states : List ℕ
  l_n_features : List ℕ
  a_n_edge_features : List (List ℕ)
  bPW_std : Bool

namespace Model

/-- Number of states of node type `t` (`self.l_n_states[t]`). -/
def nStatesOf (M : Model) (t : ℕ) : ℕ := M.l_n_states.getD t 0

/-- Number of node features of type `t` (`self.l_n_features[t]`). -/
def nFeaturesOf (M : Model) (t : ℕ) : ℕ := M.l_n_features.getD t 0

/-- Number of edge features of the ordered type pair `(t1, t2)`
(`self.a_n_edge_features[t1, t2]`). -/
def nEdgeFeaturesOf (M : Model) (t1 t2 : ℕ) : ℕ :=
  (M.a_n_edge_features.getD t1 []).getD t2 0

/-- Construction-time shape discipline: the per-type lists have length
`n_types` and the edge-feature-count matrix is exactly `n_types` by `n_types`
(the `__init__` shape check). -/
def WF (M : Model) : Prop :=
  M.l_n_states.length = M.n_types ∧
  M.l_n_features.length = M.n_types ∧
  M.a_n_edge_features.length = M.n_types ∧
  ∀ r ∈ M.a_n_edge_features, r.length = M.n_types

instance (M : Model) : Decidable M.WF := by
  unfold WF; infer_instance

/-- Modelled from the spec: `TypedCRF._iter_type_pairs`, enumerating ordered
type pairs `(t1, t2)` in row-major order (`t1` outer, `t2` inner). -/
def iter_type_pairs (M : Model) : List (ℕ × ℕ) :=
  (List.range M.n_types).flatMap fun t1 => (List.range M.n_types).map fun t2 => (t1, t2)

/-- Unary block size of `_set_size_joint_feature`: one weight per node
feature per label per node type. -/
def size_unaries (M : Model) : ℕ :=
  (List.zipWith (· * ·) M.l_n_states M.l_n_features).sum

/-- Pairwise block size of `_set_size_joint_feature`: one weight per edge
feature per label of the first node's type per label of the second node's
type, accumulated over ordered type pairs in row-major order. -/
def size_pairwise (M : Model) : ℕ :=
  M.iter_type_pairs.foldl
    (fun acc p => acc + M.nEdgeFeaturesOf p.1 p.2 * M.nStatesOf p.1 * M.nStatesOf p.2) 0

/-- Total flat feature-vector length (`self.size_joint_feature`). -/
def size_joint_feature (M : Model) : ℕ := M.size_unaries + M.size_pairwise

/-- Total number of edge features (`self._n_edge_features`,
`a_n_edge_features.sum(axis=None)`). -/
def n_edge_features (M : Model) : ℕ := (M.a_n_edge_features.map List.sum).sum

/-- Modelled from the spec: total state count provided by the `TypedCRF`
base (`self.n_states` and `self._n_states`), aggregated across types. -/
def n_states (M : Model) : ℕ := M.l_n_states.sum

/-- Modelled from the spec: total feature count provided by the `TypedCRF`
base (`self.n_features` and `self._n_features`), aggregated across types. -/
def n_features (M : Model) : ℕ := M.l_n_features.sum

end Model

/-- Prefix sums starting at `a`: `offsetsFrom a [x, y, ...] = [a, a+x, ...]`,
one entry per list element. -/
def offsetsFrom (a : ℕ) : List ℕ → List ℕ
  | [] => []
  | x :: rest => a :: offsetsFrom (a + x) rest

/-- Cumulative sums as `np.cumsum`: `cumsumFrom a [x, y, ...] = [a+x, a+x+y, ...]`. -/
def cumsumFrom (a : ℕ) : List ℕ → List ℕ
  | [] => []
  | x :: rest => (a + x) :: cumsumFrom (a + x) rest

/-- Cumulative sums (`np.cumsum`). -/
def cumsum (l : List ℕ) : List ℕ := cumsumFrom 0 l

namespace Model

/-- Modelled from the spec: `TypedCRF`'s cumulative state-count offsets per
type (`self._l_type_startindex`), the column where each type's states begin
in the global state space. -/
def l_type_startindex (M : Model) : List ℕ := offsetsFrom 0 M.l_n_states

/-- Modelled from the spec: cumulative state-product offsets per ordered type
pair (`self._l_edgetype_start_index`), in row-major pair order. -/
def l_edgetype_start_index (M : Model) : List ℕ :=
  offsetsFrom 0 (M.iter_type_pairs.map fun p => M.nStatesOf p.1 * M.nStatesOf p.2)

/-- Modelled from the spec: per-type feature column ranges
(`self._a_feature_slice_by_typ`), derived from the cumulative feature-count
offsets: type `t` owns columns `[start, start + features(t))`. -/
def a_feature_slice_by_typ (M : Model) : List (ℕ × ℕ) :=
  (offsetsFrom 0 M.l_n_features).zipWith (fun a w => (a, a + w)) M.l_n_features

end Model

/-- Instance `X = (node_features, edges, edge_features)`: per-type node
feature blocks, per-ordered-type-pair edge blocks (each edge a pair of
within-type node indices), and per-pair edge feature blocks.  `none` embeds
Python's `None` (absent block). -/
structure Instance (R : Type) where
  node_features : List (Option (Mat R))
  edges : List (Option (List (ℕ × ℕ)))
  edge_features : List (Option (Mat R))

/-- Labels `Y`: either a complete per-type discrete labeling, or the
`(unary_marginals, pairwise_marginals)` pair of a relaxed solution. -/
inductive YLab (R : Type) where
  | discrete : List (List ℕ) → YLab R
  | relaxed : Mat R → Mat R → YLab R

/-- Accessor `self._get_edges(x)`. -/
def get_edges (x : Instance R) : List (Option (List (ℕ × ℕ))) := x.edges

/-- Modelled from the spec: `self._get_edges(x, True)`, replacing absent
blocks by empty ones. -/
def get_edges_clean (x : Instance R) : List (List (ℕ × ℕ)) :=
  x.edges.map fun o => o.getD []

/-- Accessor `self._get_node_features(x)`. -/
def get_node_features (x : Instance R) : List (Option (Mat R)) := x.node_features

/-- Modelled from the spec: `self._get_node_features(x, True)`, replacing
absent or empty blocks by `np.empty((0, 0))`. -/
def get_node_features_clean (x : Instance R) : List (Mat R) :=
  x.node_features.map fun o =>
    match o with
    | none => zerosM R 0 0
    | some nf => if nf.rows = 0 then zerosM R 0 0 else nf

/-- Accessor `self._get_edge_features(x)`. -/
def get_edge_features (x : Instance R) : List (Option (Mat R)) := x.edge_features

/-- Accessor `self._get_edge_features_by_type(x, typ1, typ2)`:
`x[2][typ1 * n_types + typ2]`. -/
def get_edge_features_by_type (M : Model) (x : Instance R) (t1 t2 : ℕ) : Option (Mat R) :=
  x.edge_features.getD (t1 * M.n_types + t2) none

/-! Validation -/

/-- Error message of `_check_size_x` when an edge block is absent but its
edge-feature block is present. -/
def msgEdgeEmpty : String :=
  "Empty edge array but non empty edge-feature array, for same type of edge"

/-- Error message of `_check_size_x` when an edge-feature block is absent but
its edge block is present. -/
def msgEdgeFeatureEmpty : String :=
  "Empty edge-feature array but non empty edge array, for same type of edge"

/-- Error message of `_check_size_x` when edge and edge-feature blocks have
different first dimensions. -/
def msgEdgeLen : String :=
  "Edge and edge feature matrices must have same size in 1st dimension"

/-- Error message of `_check_size_x` naming a type pair whose edge-feature
block has the wrong number of columns. -/
def msgBadCols (t1 t2 : ℕ) : String :=
  "Types " ++ toString t1 ++ " x " ++ toString t2 ++ ": bad number of edge features"

/-- Per-pair presence/shape check from the first loop of `_check_size_x`:
edge and edge-feature blocks must be jointly absent or jointly present, and
when present must agree in first dimension.  (The `ndim != 2` check of the
source is inherent here: `Mat` is 2-dimensional by representation.) -/
def checkEdgePair (e : Option (List (ℕ × ℕ))) (ef : Option (Mat R)) : Except String Unit :=
  match e, ef with
  | none, none => .ok ()
  | none, some _ => .error msgEdgeEmpty
  | some _, none => .error msgEdgeFeatureEmpty
  | some es, some efm =>
      if es.length ≠ efm.rows then .error msgEdgeLen else .ok ()

/-- First loop of `_check_size_x` over the zipped edge and edge-feature
block lists. -/
def loopPairs : List (Option (List (ℕ × ℕ)) × Option (Mat R)) → Except String Unit
  | [] => .ok ()
  | (e, ef) :: rest => checkEdgePair e ef >>= fun _ => loopPairs rest

/-- Per-pair column-count check from the second loop of `_check_size_x`:
a present edge-feature block must have exactly the declared number of
edge-feature columns for its type pair. -/
def checkColsPair (M : Model) (x : Instance R) (t1 t2 : ℕ) : Except String Unit :=
  match get_edge_features_by_type M x t1 t2 with
  | none => .ok ()
  | some ef =>
      if ef.cols ≠ M.nEdgeFeaturesOf t1 t2 then .error (msgBadCols t1 t2) else .ok ()

/-- Second loop of `_check_size_x`, over `_iter_type_pairs()`. -/
def loopCols (M : Model) (x : Instance R) : List (ℕ × ℕ) → Except String Unit
  | [] => .ok ()
  | (t1, t2) :: rest => checkColsPair M x t1 t2 >>= fun _ => loopCols M x rest

/-- Modelled from the spec: `TypedCRF._check_size_x`, the generic per-type
node-feature-block validator of the base class: one block per node type, a
present block carrying the type's declared feature count as column count;
absent blocks are allowed (a type with zero nodes). -/
def typedCRF_check_size_x (M : Model) (x : Instance R) : Except String Unit :=
  if x.node_features.length ≠ M.n_types then
    .error ("Expected " ++ toString M.n_types ++ " node feature arrays")
  else if (List.range M.n_types).all (fun t =>
      match x.node_features.getD t none with
      | none => true
      | some nf => nf.cols == M.nFeaturesOf t) then
    .ok ()
  else .error "Bad number of node features for some type"

/-- Instance validation `_check_size_x` of `NodeTypeEdgeFeatureGraphCRF`. -/
def check_size_x (M : Model) (x : Instance R) : Except String Unit :=
  if (get_edges x).length ≠ M.n_types ^ 2 then
    .error ("Expected " ++ toString (M.n_types ^ 2) ++ " edge arrays")
  else if (get_edge_features x).length ≠ M.n_types ^ 2 then
    .error ("Expected " ++ toString (M.n_types ^ 2) ++ " edge feature arrays")
  else
    typedCRF_check_size_x M x >>= fun _ =>
    loopPairs ((get_edges x).zip (get_edge_features x)) >>= fun _ =>
    loopCols M x M.iter_type_pairs

/-- Number of rows of the node-feature block of type `t` (`0` when absent). -/
def nodeRowsAt (x : Instance R) (t : ℕ) : ℕ :=
  match x.node_features.getD t none with
  | none => 0
  | some nf => nf.rows

/-- Modelled from the spec: `TypedCRF._check_size_y` — a discrete labeling
must have one label array per node type, of length the node count of that
type; a relaxed marginals pair is not validated against the discrete-label
invariants. -/
def check_size_y (_M : Model) (x : Instance R) (y : YLab R) : Except String Unit :=
  match y with
  | .relaxed _ _ => .ok ()
  | .discrete ly =>
      if ly.length = x.node_features.length ∧
         ∀ t < x.node_features.length, (ly.getD t []).length = nodeRowsAt x t then
        .ok ()
      else .error "Bad size of labels"

/-- Modelled from the spec: `TypedCRF._check_size_w`, the weight-vector
length validator: the flat weight vector must have length
`size_joint_feature`. -/
def check_size_w (M : Model) (w : List R) : Except String Unit :=
  if w.length ≠ M.size_joint_feature then
    .error "w has wrong shape"
  else .ok ()

/-! Joint feature assembly -/

/-- Entry function of the one-hot unary activation matrix built by the
discrete branch of `joint_feature`: the loop walks
`zip(l_node_features, _l_type_startindex, y)`, skips absent blocks, and sets
a `1` in row range `[i_start, i_stop)` at column
`typ_start_index + y_typ[row - i_start]`. -/
def oneHotUnaryEnt : List (Option (Mat R) × ℕ × List ℕ) → ℕ → ℕ → ℕ → R
  | [], _, _, _ => 0
  | (none, _, _) :: rest, iStart, i, j => oneHotUnaryEnt rest iStart i j
  | (some nf, tsi, yt) :: rest, iStart, i, j =>
      if i < iStart + nf.rows then
        if iStart ≤ i ∧ j = tsi + yt.getD (i - iStart) 0 then 1 else 0
      else oneHotUnaryEnt rest (iStart + nf.rows) i j

/-- One-hot `unary_marginals` of the discrete branch of `joint_feature`:
an `(n_nodes, _n_states)` matrix. -/
def oneHotUnary (M : Model) (x : Instance R) (ly : List (List ℕ)) (n_nodes : ℕ) : Mat R :=
  ⟨n_nodes, M.n_states,
   oneHotUnaryEnt ((get_node_features x).zip (M.l_type_startindex.zip ly)) 0⟩

/-- Entry function of the one-hot pairwise activation matrix built by the
discrete branch of `joint_feature`: the loop walks
`zip(_iter_type_pairs(), l_edges, _l_edgetype_start_index)`, skips absent
edge blocks, and for each edge `(n1, n2)` of pair `(t1, t2)` sets a `1` at
column `edgetype_start_index + l_n_states[t2] * y[t1][n1] + y[t2][n2]`. -/
def oneHotPwEnt (M : Model) (ly : List (List ℕ)) :
    List ((ℕ × ℕ) × Option (List (ℕ × ℕ)) × ℕ) → ℕ → ℕ → ℕ → R
  | [], _, _, _ => 0
  | (_, none, _) :: rest, iStart, i, j => oneHotPwEnt M ly rest iStart i j
  | ((t1, t2), some es, etsi) :: rest, iStart, i, j =>
      if i < iStart + es.length then
        if iStart ≤ i ∧
           j = etsi + M.nStatesOf t2 * ((ly.getD t1 []).getD (es.getD (i - iStart) (0, 0)).1 0)
                 + ((ly.getD t2 []).getD (es.getD (i - iStart) (0, 0)).2 0) then 1 else 0
      else oneHotPwEnt M ly rest (iStart + es.length) i j

/-- One-hot `pw` of the discrete branch of `joint_feature`: an
`(n_edges, _n_states ** 2)` matrix. -/
def oneHotPw (M : Model) (x : Instance R) (ly : List (List ℕ)) (n_edges : ℕ) : Mat R :=
  ⟨n_edges, M.n_states ^ 2,
   oneHotPwEnt M ly (M.iter_type_pairs.zip ((get_edges x).zip M.l_edgetype_start_index)) 0⟩

/-- Sequence a zipped list of optional blocks: `some` of the unwrapped list
when every block is present, `none` otherwise. -/
def seqSome {α β : Type} : List (α × Option β) → Option (List (α × β))
  | [] => some []
  | (_, none) :: _ => none
  | (a, some b) :: rest => (seqSome rest).map fun r => (a, b) :: r

/-- Entry function of the stacked node-feature matrix `all_node_features`:
block of type `t` occupies its own consecutive row range and the feature
column range `_a_feature_slice_by_typ[t]`; all other entries are `0`. -/
def stackNFEnt : List ((ℕ × ℕ) × Mat R) → ℕ → ℕ → ℕ → R
  | [], _, _, _ => 0
  | ((j0, j1), nf) :: rest, iStart, i, j =>
      if i < iStart + nf.rows then
        if iStart ≤ i ∧ j0 ≤ j ∧ j < j1 then nf.ent (i - iStart) (j - j0) else 0
      else stackNFEnt rest (iStart + nf.rows) i j

/-- Stacked node-feature matrix `all_node_features` of `joint_feature`: an
`(n_nodes, _n_features)` matrix.  The source loop reads
`node_features.shape` on every block of `zip(_a_feature_slice_by_typ,
l_node_features)` with no `None` guard, so an absent node-feature block
raises (`AttributeError` on `None.shape`). -/
def stackNodeFeatures (M : Model) (x : Instance R) (n_nodes : ℕ) : Except String (Mat R) :=
  match seqSome (M.a_feature_slice_by_typ.zip (get_node_features x)) with
  | none => .error "AttributeError: NoneType object has no attribute shape"
  | some pairs => .ok ⟨n_nodes, M.n_features, stackNFEnt pairs 0⟩

/-- Entry function of the stacked edge-feature matrix `all_edge_features`:
each present block occupies its own consecutive row range and a column range
of its own width; an absent block is skipped by `continue`, advancing
neither offset. -/
def stackEFEnt : List (Option (Mat R)) → ℕ → ℕ → ℕ → ℕ → R
  | [], _, _, _, _ => 0
  | none :: rest, iStart, jStart, i, j => stackEFEnt rest iStart jStart i j
  | some ef :: rest, iStart, jStart, i, j =>
      if i < iStart + ef.rows then
        if iStart ≤ i ∧ jStart ≤ j ∧ j < jStart + ef.cols then
          ef.ent (i - iStart) (j - jStart)
        else 0
      else stackEFEnt rest (iStart + ef.rows) (jStart + ef.cols) i j

/-- Stacked edge-feature matrix `all_edge_features` of `joint_feature`: an
`(n_edges, _n_edge_features)` matrix. -/
def stackEdgeFeatures (M : Model) (x : Instance R) (n_edges : ℕ) : Mat R :=
  ⟨n_edges, M.n_edge_features, stackEFEnt (get_edge_features x) 0 0⟩

/-- Block-diagonal ravel (`block_ravel`): unzip the cut-point pairs, pair
consecutive cut points, extract each diagonal block `a[i0:i1, j0:j1]`, ravel
it row-major, and concatenate (`np.hstack`). -/
def block_ravel (a : Mat R) (lij : List (ℕ × ℕ)) : List R :=
  let li := lij.map Prod.fst
  let lj := lij.map Prod.snd
  (((li.zip li.tail).zip (lj.zip lj.tail)).map fun q =>
    (Mat.sub a q.1.1 q.1.2 q.2.1 q.2.2).ravel).flatten

/-- Total node count `n_nodes` as computed in `joint_feature`. -/
def nNodes (x : Instance R) : ℕ :=
  ((get_node_features_clean x).map Mat.rows).sum

/-- Total edge count `n_edges` as computed in `joint_feature`. -/
def nEdges (x : Instance R) : ℕ :=
  ((get_edges_clean x).map List.length).sum

/-- Assembly tail of `joint_feature`, shared by the discrete and the relaxed
branch: stack the node and edge features, accumulate against the activation
matrices, block-ravel both accumulators, check their lengths against the
precomputed sizes (the source's `assert` statements), and concatenate. -/
def jf_assemble (M : Model) (x : Instance R) (unary_marginals pw : Mat R) :
    Except String (List R) :=
  stackNodeFeatures M x (nNodes x) >>= fun all_node_features =>
  let unaries_acc := Mat.matmul unary_marginals.transpose all_node_features
  let all_edge_features := stackEdgeFeatures M x (nEdges x)
  let pairwise_acc :=
    if M.bPW_std then Mat.matmul all_edge_features.transpose pw
    else Mat.matmul pw.transpose all_edge_features
  let unaries_acc_ravelled :=
    block_ravel unaries_acc ((0, 0) :: (cumsum M.l_n_states).zip (cumsum M.l_n_features))
  if unaries_acc_ravelled.length ≠ M.size_unaries then
    .error "AssertionError: unaries"
  else
    let L1 := cumsum M.a_n_edge_features.flatten
    let L2 := cumsum (M.iter_type_pairs.map fun p => M.nStatesOf p.1 * M.nStatesOf p.2)
    let LL := if M.bPW_std then (L1, L2) else (L2, L1)
    let pairwise_acc_ravelled := block_ravel pairwise_acc ((0, 0) :: LL.1.zip LL.2)
    if pairwise_acc_ravelled.length ≠ M.size_pairwise then
      .error "AssertionError: pairwise"
    else
      let jf := unaries_acc_ravelled ++ pairwise_acc_ravelled
      if jf.length ≠ M.size_joint_feature then
        .error "AssertionError: total"
      else .ok jf

/-- Feature vector `joint_feature(x, y)` of `NodeTypeEdgeFeatureGraphCRF`:
validate, build the unary and pairwise activation matrices (one-hot for a
discrete labeling, the supplied marginals for a relaxed one, the unary ones
reshaped to `(n_nodes, _n_states)`), then assemble. -/
def joint_feature (M : Model) (x : Instance R) (y : YLab R) : Except String (List R) :=
  check_size_x M x >>= fun _ =>
  check_size_y M x y >>= fun _ =>
  (match y with
   | .relaxed um pwm =>
       (Mat.reshape um (nNodes x) M.n_states).map fun umr => (umr, pwm)
   | .discrete ly =>
       .ok (oneHotUnary M x ly (nNodes x), oneHotPw M x ly (nEdges x))) >>= fun ump =>
  jf_assemble M x ump.1 ump.2

/-! Pairwise potentials -/

/-- Common shape of a list of blocks, when they all agree (`np.asarray` turns
a list of equally-shaped 2-d arrays into a 3-d array and fails otherwise). -/
def commonShape : List (Mat R) → Option (ℕ × ℕ)
  | [] => none
  | [b] => some (b.rows, b.cols)
  | b :: rest =>
      match commonShape rest with
      | some (r, c) => if b.rows = r ∧ b.cols = c then some (r, c) else none
      | none => none

/-- Sequence a list of optional blocks. -/
def seqOpt {β : Type} : List (Option β) → Option (List β)
  | [] => some []
  | none :: _ => none
  | some b :: rest => (seqOpt rest).map fun r => b :: r

/-- Pairwise potentials `_get_pairwise_potentials(x, w)`: after the weight
and instance checks, take the weight positions past `n_states * n_features`,
reshape them into an `(n_edge_features, -1)` matrix, and `np.dot` the
edge-feature list against it, reshaping the result to
`(len, n_states, n_states)`.  The `np.dot` against the Python *list* of
per-pair arrays only makes sense when every block is present with one common
shape whose column count matches; all other cases raise. -/
def get_pairwise_potentials (M : Model) (x : Instance R) (w : List R) :
    Except String (List (Mat R)) :=
  check_size_w M w >>= fun _ =>
  check_size_x M x >>= fun _ =>
  let edge_features := get_edge_features x
  let pairwise := w.drop (M.n_states * M.n_features)
  if M.n_edge_features = 0 ∨ ¬ (M.n_edge_features ∣ pairwise.length) then
    .error "ValueError: cannot reshape array"
  else
    let ncols := pairwise.length / M.n_edge_features
    let pwMat : Mat R := ⟨M.n_edge_features, ncols, fun i j => pairwise.getD (i * ncols + j) 0⟩
    match seqOpt edge_features with
    | none => .error "ValueError: setting an array element with a sequence"
    | some blocks =>
      match commonShape blocks with
      | none => .error "ValueError: setting an array element with a sequence"
      | some (r, c) =>
        if c ≠ M.n_edge_features then
          .error "ValueError: shapes not aligned"
        else if r * ncols ≠ M.n_states * M.n_states then
          .error "ValueError: cannot reshape array"
        else
          .ok (blocks.map fun b =>
            let m := Mat.matmul b pwMat
            ⟨M.n_states, M.n_states,
             fun i j => m.ent ((i * M.n_states + j) / ncols) ((i * M.n_states + j) % ncols)⟩)

/-! Concrete example data and auxiliary definitions used by the claims -/

/-- Example model of the spec's concrete scenario. -/
def Mex : Model := ⟨2, [2, 3], [3, 2], [[1, 2], [2, 0]], true⟩

/-- Specification-side reading of `block_ravel`: walk the cut-point list,
and for every consecutive pair of cut points (one per block) extract the
diagonal sub-matrix — row-block `i` intersected with column-block `i`, never
a cross-block combination — ravel it row-major and concatenate in block
order. -/
def diagBlocksRavel (a : Mat R) : List (ℕ × ℕ) → List R
  | p :: q :: rest => (Mat.sub a p.1 q.1 p.2 q.2).ravel ++ diagBlocksRavel a (q :: rest)
  | _ => []

/-- Instance with a present edge block but an absent edge-feature block for
the first type pair. -/
def xMismatch : Instance ℤ :=
  ⟨[], [some [], none, none, none], [none, none, none, none]⟩

/-- Instance whose (0,0) edge-feature block has 3 columns where the example
model declares 1. -/
def xBadCols : Instance ℤ :=
  ⟨[some (zerosM ℤ 1 3), some (zerosM ℤ 0 2)],
   [some [], none, none, none],
   [some (zerosM ℤ 0 3), none, none, none]⟩

/-- Valid example instance for the example model: 2 nodes of type 0 (3
features), 1 node of type 1 (2 features), one (0,0) edge and one (0,1)
edge with their feature vectors, no (1,0) or (1,1) edges. -/
def Xex : Instance ℤ :=
  ⟨[some ⟨2, 3, fun i j => (i : ℤ) * 10 + (j : ℤ)⟩,
    some ⟨1, 2, fun i j => (i : ℤ) * 100 + (j : ℤ) + 7⟩],
   [some [(0, 1)], some [(0, 0)], none, none],
   [some ⟨1, 1, fun _ _ => 5⟩, some ⟨1, 2, fun _ j => 3 + (j : ℤ)⟩, none, none]⟩

/-- Valid discrete labeling for `Xex`: type-0 nodes labeled 0 and 1, the
type-1 node labeled 2. -/
def Yex : List (List ℕ) := [[0, 1], [2]]

/-- A weight vector of the correct total length 40 for `Mex`. -/
def w40ex : List ℤ := List.replicate 40 1

/-- Instance that passes validation but has an absent (None) node-feature
block for type 1 (a type with zero nodes). -/
def XnoneEx : Instance ℤ :=
  ⟨[some ⟨2, 3, fun i j => (i : ℤ) * 10 + (j : ℤ)⟩, none],
   [some [(0, 1)], none, none, none],
   [some ⟨1, 1, fun _ _ => 5⟩, none, none, none]⟩

/-- Discrete labeling for `XnoneEx` (type 1 has no nodes). -/
def YnoneEx : List (List ℕ) := [[0, 1], []]

/-- Two matrices of the same shape whose entries agree within that shape.
Everything the assembler computes depends only on in-shape entries. -/
def EntEq (a b : Mat R) : Prop :=
  a.rows = b.rows ∧ a.cols = b.cols ∧
    ∀ i < a.rows, ∀ j < a.cols, a.ent i j = b.ent i j

/-- Number of rows of an optional block (`0` for an absent one). -/
def optRows {S : Type} : Option (Mat S) → ℕ
  | none => 0
  | some nf => nf.rows

/-- Locate a global row index in a partition into consecutive blocks of the
given sizes: result is (block index, offset within the block). -/
def blockLoc : List ℕ → ℕ → ℕ × ℕ
  | [], i => (0, i)
  | n :: ns, i =>
      if i < n then (0, i)
      else ((blockLoc ns (i - n)).1 + 1, (blockLoc ns (i - n)).2)

/-- Global state column of node `i`'s observed label: the start column of
`i`'s type plus the label. -/
def specUnaryCol (starts : List ℕ) (lys : List (List ℕ)) (counts : List ℕ) (i : ℕ) : ℕ :=
  starts.getD (blockLoc counts i).1 0
    + ((lys.getD (blockLoc counts i).1 []).getD (blockLoc counts i).2 0)

/-- Specification-side conversion of a discrete labeling to unary marginals:
probability mass 1 on the observed label of each node, one-hot in the global
state layout, 0 elsewhere. -/
def specUnaryMarginals {S : Type} [CommSemiring S] (M : Model) (x : Instance S)
    (ly : List (List ℕ)) : Mat S :=
  ⟨nNodes x, M.n_states, fun i j =>
    if j = specUnaryCol M.l_type_startindex ly (x.node_features.map optRows) i
    then 1 else 0⟩

/-- Pairwise state-product column of edge `i`'s observed label pair: the
start column of its type pair plus `states(t2) * label(end1) + label(end2)`. -/
def specPwCol (M : Model) (ly : List (List ℕ)) (prs : List (ℕ × ℕ))
    (es : List (Option (List (ℕ × ℕ)))) (starts : List ℕ) (i : ℕ) : ℕ :=
  starts.getD (blockLoc (es.map fun o => (o.getD []).length) i).1 0
    + M.nStatesOf (prs.getD (blockLoc (es.map fun o => (o.getD []).length) i).1 (0, 0)).2
      * ((ly.getD (prs.getD (blockLoc (es.map fun o => (o.getD []).length) i).1 (0, 0)).1
            []).getD
          (((es.getD (blockLoc (es.map fun o => (o.getD []).length) i).1 none).getD
              []).getD (blockLoc (es.map fun o => (o.getD []).length) i).2 (0, 0)).1 0)
    + ((ly.getD (prs.getD (blockLoc (es.map fun o => (o.getD []).length) i).1 (0, 0)).2
          []).getD
        (((es.getD (blockLoc (es.map fun o => (o.getD []).length) i).1 none).getD
            []).getD (blockLoc (es.map fun o => (o.getD []).length) i).2 (0, 0)).2 0)

/-- Specification-side conversion of a discrete labeling to pairwise
marginals: probability mass 1 on each edge's observed label pair, one-hot in
the pairwise state-product layout, 0 elsewhere. -/
def specPwMarginals {S : Type} [CommSemiring S] (M : Model) (x : Instance S)
    (ly : List (List ℕ)) : Mat S :=
  ⟨nEdges x, M.n_states ^ 2, fun i j =>
    if j = specPwCol M ly M.iter_type_pairs x.edges M.l_edgetype_start_index i
    then 1 else 0⟩

/-- Replace the edge and edge-feature blocks of the type pair at block
index `k`. -/
def setPairBlocks (x : Instance R) (k : ℕ) (e : Option (List (ℕ × ℕ)))
    (ef : Option (Mat R)) : Instance R :=
  ⟨x.node_features, x.edges.set k e, x.edge_features.set k ef⟩

/-- Replace only the edge-feature block of the type pair at block index `k`. -/
def replaceEF (x : Instance R) (k : ℕ) (ef : Option (Mat R)) : Instance R :=
  ⟨x.node_features, x.edges, x.edge_features.set k ef⟩

/-- Column offsets at which the present edge-feature blocks are placed by
the stacking loop of `joint_feature` (`i_col_start` per present block). -/
def colStartsFrom (j : ℕ) : List (Option (Mat R)) → List ℕ
  | [] => []
  | none :: rest => colStartsFrom j rest
  | some b :: rest => j :: colStartsFrom (j + b.cols) rest

/-- Instance with a zero-edge (1,0) pair: empty edge block and a 0-row
edge-feature block with the declared 2 columns. -/
def X9 : Instance ℤ :=
  ⟨[some ⟨2, 3, fun i j => (i : ℤ) * 10 + (j : ℤ)⟩,
    some ⟨1, 2, fun i j => (i : ℤ) * 100 + (j : ℤ) + 7⟩],
   [some [(0, 1)], some [(0, 0)], some [], none],
   [some ⟨1, 1, fun _ _ => 5⟩, some ⟨1, 2, fun _ j => 3 + (j : ℤ)⟩,
    some (zerosM ℤ 0 2), none]⟩


/-! List and sum helper lemmas -/

lemma list_sum_range_eq {β : Type} [AddCommMonoid β] (g : ℕ → β) (n : ℕ) :
    ((List.range n).map g).sum = ∑ t ∈ Finset.range n, g t := by
  induction n with
  | zero => simp
  | succ m ih =>
      rw [List.range_succ, List.map_append, List.sum_append, Finset.sum_range_succ, ih]
      simp

lemma list_sum_eq_range (l : List ℕ) :
    l.sum = ∑ t ∈ Finset.range l.length, l.getD t 0 := by
  induction l with
  | nil => simp
  | cons a l ih =>
      rw [List.sum_cons, List.length_cons, Finset.sum_range_succ', ih]
      simp [add_comm]

lemma list_eq_range_map : ∀ (l : List ℕ), l = (List.range l.length).map (fun t => l.getD t 0)
  | [] => rfl
  | a :: l => by
      rw [List.length_cons, List.range_succ_eq_map, List.map_cons, List.map_map]
      show a :: l = a :: (List.range l.length).map (fun t => l.getD t 0)
      exact congrArg (List.cons a) (list_eq_range_map l)

lemma foldl_add_sum {α β : Type} [AddCommMonoid β] (g : α → β) :
    ∀ (l : List α) (a : β), l.foldl (fun acc p => acc + g p) a = a + (l.map g).sum
  | [], a => by simp
  | p :: rest, a => by
      rw [List.foldl_cons, foldl_add_sum g rest (a + g p), List.map_cons, List.sum_cons, add_assoc]

lemma flatMap_map_sum {β : Type} [AddCommMonoid β] (h : ℕ → ℕ → β) (m : ℕ) :
    ∀ n, ((List.range n).flatMap (fun t1 => (List.range m).map (h t1))).sum
      = ∑ t1 ∈ Finset.range n, ∑ t2 ∈ Finset.range m, h t1 t2
  | 0 => by simp
  | n + 1 => by
      rw [List.range_succ, List.flatMap_append, List.sum_append, Finset.sum_range_succ,
          flatMap_map_sum h m n]
      simp [list_sum_range_eq]

lemma iter_pairs_map_sum {β : Type} [AddCommMonoid β] (M : Model) (g : ℕ × ℕ → β) :
    (M.iter_type_pairs.map g).sum
      = ∑ t1 ∈ Finset.range M.n_types, ∑ t2 ∈ Finset.range M.n_types, g (t1, t2) := by
  unfold Model.iter_type_pairs
  rw [List.map_flatMap]
  simp only [List.map_map]
  exact flatMap_map_sum (fun t1 t2 => g (t1, t2)) M.n_types M.n_types

lemma zipWith_mul_sum :
    ∀ (s f : List ℕ), s.length = f.length →
      (List.zipWith (· * ·) s f).sum = ∑ t ∈ Finset.range s.length, s.getD t 0 * f.getD t 0
  | [], [], _ => by simp
  | [], _ :: _, h => by simp at h
  | _ :: _, [], h => by simp at h
  | a :: s, b :: f, h => by
      rw [List.zipWith_cons_cons, List.sum_cons, List.length_cons, Finset.sum_range_succ',
          zipWith_mul_sum s f (by simpa using h)]
      simp [add_comm]

lemma flatten_eq_flatMap_range (m : ℕ) :
    ∀ (l : List (List ℕ)), (∀ r ∈ l, r.length = m) →
      l.flatten = (List.range l.length).flatMap
        (fun i => (List.range m).map fun j => (l.getD i []).getD j 0)
  | [], _ => by simp
  | r :: l, h => by
      rw [List.flatten_cons, List.length_cons, List.range_succ_eq_map, List.flatMap_cons,
          List.flatMap_map]
      have hr : r.length = m := h r (List.mem_cons_self r l)
      have h1 : r = (List.range m).map (fun j => r.getD j 0) := by
        conv_lhs => rw [list_eq_range_map r, hr]
      show r ++ l.flatten
        = (List.range m).map (fun j => r.getD j 0)
          ++ (List.range l.length).flatMap
               (fun i => (List.range m).map fun j => (l.getD i []).getD j 0)
      rw [← h1, flatten_eq_flatMap_range m l (fun q hq => h q (List.mem_cons_of_mem r hq))]

lemma flatten_eq_iter_pairs_map (M : Model) (h : M.WF) :
    M.a_n_edge_features.flatten
      = M.iter_type_pairs.map fun p => M.nEdgeFeaturesOf p.1 p.2 := by
  obtain ⟨-, -, hlen, hrows⟩ := h
  unfold Model.iter_type_pairs
  rw [List.map_flatMap, flatten_eq_flatMap_range M.n_types M.a_n_edge_features hrows, hlen]
  refine List.flatMap_congr ?_
  intro t1 _
  rw [List.map_map]
  rfl

/-! Concrete example data (the spec's concrete scenario: 2 node types,
type 0 with 2 states and 3 features, type 1 with 3 states and 2 features,
edge-feature-count matrix [[1, 2], [2, 0]]) -/

/-- Claim C2: the layout computation yields
`unary_size = Σ_t states[t] * features[t]`,
`pairwise_size = Σ_(t1,t2) edgefeat[t1,t2] * states[t1] * states[t2]` over
ordered pairs, and `total = unary_size + pairwise_size`; on the concrete
scenario (2 types, states (2,3), features (3,2), edge features
[[1,2],[2,0]]) this gives 12, 28 and 40. -/
theorem claim_C2 (M : Model) (h : M.WF) :
    (M.size_unaries = ∑ t ∈ Finset.range M.n_types, M.nStatesOf t * M.nFeaturesOf t) ∧
    (M.size_pairwise = ∑ t1 ∈ Finset.range M.n_types, ∑ t2 ∈ Finset.range M.n_types,
        M.nEdgeFeaturesOf t1 t2 * M.nStatesOf t1 * M.nStatesOf t2) ∧
    M.size_joint_feature = M.size_unaries + M.size_pairwise ∧
    (Mex.size_unaries = 12 ∧ Mex.size_pairwise = 28 ∧ Mex.size_joint_feature = 40) := by
  obtain ⟨hs, hf, -, -⟩ := h
  refine ⟨?_, ?_, rfl, by decide, by decide, by decide⟩
  · rw [Model.size_unaries, zipWith_mul_sum M.l_n_states M.l_n_features (by rw [hs, hf]), hs]
    rfl
  · rw [Model.size_pairwise, foldl_add_sum, zero_add, iter_pairs_map_sum]

/-- Witness: claim C2 applied to the concrete scenario model. -/
theorem claim_C2_witness :
    Mex.WF ∧
    ((Mex.size_unaries = ∑ t ∈ Finset.range Mex.n_types, Mex.nStatesOf t * Mex.nFeaturesOf t) ∧
     (Mex.size_pairwise = ∑ t1 ∈ Finset.range Mex.n_types, ∑ t2 ∈ Finset.range Mex.n_types,
         Mex.nEdgeFeaturesOf t1 t2 * Mex.nStatesOf t1 * Mex.nStatesOf t2) ∧
     Mex.size_joint_feature = Mex.size_unaries + Mex.size_pairwise ∧
     (Mex.size_unaries = 12 ∧ Mex.size_pairwise = 28 ∧ Mex.size_joint_feature = 40)) :=
  ⟨by decide, claim_C2 Mex (by decide)⟩

lemma block_ravel_eq_diag (a : Mat R) :
    ∀ lij, block_ravel a lij = diagBlocksRavel a lij
  | [] => rfl
  | [_] => rfl
  | p :: q :: rest => by
      have ih := block_ravel_eq_diag a (q :: rest)
      simp only [block_ravel, List.map_cons, List.tail_cons, List.zip_cons_cons,
        List.flatten_cons] at ih ⊢
      rw [ih]
      rfl

/-- Claim C3: `block_ravel(a, lij)` is the concatenation, in block order, of
the row-major flattenings of exactly the diagonal sub-matrices (row-block i
with column-block i), with no cross-block entries. -/
theorem claim_C3 {S : Type} [CommSemiring S] (a : Mat S) (lij : List (ℕ × ℕ)) :
    block_ravel a lij = diagBlocksRavel a lij :=
  block_ravel_eq_diag a lij

/-! Except helpers and a characterization of `check_size_x` -/

lemma excBind_ok {α β : Type} (a : α) (f : α → Except String β) :
    (Except.ok a >>= f) = f a := rfl

lemma excBind_error {α β : Type} (e : String) (f : α → Except String β) :
    ((Except.error e : Except String α) >>= f) = .error e := rfl

lemma exc_bind_ok_iff {α β : Type} (m : Except String α) (f : α → Except String β) (b : β) :
    (m >>= f) = .ok b ↔ ∃ a, m = .ok a ∧ f a = .ok b := by
  cases m with
  | ok a => simp [excBind_ok]
  | error e => simp [excBind_error]

lemma loopPairs_ok_iff :
    ∀ (l : List (Option (List (ℕ × ℕ)) × Option (Mat R))),
      loopPairs l = .ok () ↔ ∀ p ∈ l, checkEdgePair p.1 p.2 = .ok ()
  | [] => by simp [loopPairs]
  | (e, ef) :: rest => by
      rw [loopPairs]
      show (checkEdgePair e ef >>= fun _ => loopPairs rest) = .ok () ↔ _
      rw [exc_bind_ok_iff]
      simp only [List.forall_mem_cons]
      constructor
      · rintro ⟨a, ha, hrest⟩
        cases a
        exact ⟨ha, (loopPairs_ok_iff rest).mp hrest⟩
      · rintro ⟨ha, hrest⟩
        exact ⟨(), ha, (loopPairs_ok_iff rest).mpr hrest⟩

lemma loopCols_ok_iff (M : Model) (x : Instance R) :
    ∀ (l : List (ℕ × ℕ)),
      loopCols M x l = .ok () ↔ ∀ p ∈ l, checkColsPair M x p.1 p.2 = .ok ()
  | [] => by simp [loopCols]
  | (t1, t2) :: rest => by
      rw [loopCols]
      show (checkColsPair M x t1 t2 >>= fun _ => loopCols M x rest) = .ok () ↔ _
      rw [exc_bind_ok_iff]
      simp only [List.forall_mem_cons]
      constructor
      · rintro ⟨a, ha, hrest⟩
        cases a
        exact ⟨ha, (loopCols_ok_iff M x rest).mp hrest⟩
      · rintro ⟨ha, hrest⟩
        exact ⟨(), ha, (loopCols_ok_iff M x rest).mpr hrest⟩

lemma check_size_x_ok_iff (M : Model) (x : Instance R) :
    check_size_x M x = .ok () ↔
      (x.edges.length = M.n_types ^ 2 ∧ x.edge_features.length = M.n_types ^ 2 ∧
       typedCRF_check_size_x M x = .ok () ∧
       (∀ p ∈ x.edges.zip x.edge_features, checkEdgePair p.1 p.2 = .ok ()) ∧
       (∀ p ∈ M.iter_type_pairs, checkColsPair M x p.1 p.2 = .ok ())) := by
  unfold check_size_x get_edges get_edge_features
  split_ifs with h1 h2
  · simp [h1]
  · simp [h2]
  · rw [exc_bind_ok_iff]
    push_neg at h1 h2
    simp only [h1, h2, true_and]
    constructor
    · rintro ⟨a, ha, hr⟩
      cases a
      rw [exc_bind_ok_iff] at hr
      obtain ⟨b, hb, hc⟩ := hr
      cases b
      exact ⟨ha, (loopPairs_ok_iff _).mp hb, (loopCols_ok_iff M x _).mp hc⟩
    · rintro ⟨ha, hb, hc⟩
      exact ⟨(), ha, by
        rw [exc_bind_ok_iff]
        exact ⟨(), (loopPairs_ok_iff _).mpr hb, (loopCols_ok_iff M x _).mpr hc⟩⟩

lemma mem_iter_type_pairs (M : Model) (t1 t2 : ℕ) :
    (t1, t2) ∈ M.iter_type_pairs ↔ t1 < M.n_types ∧ t2 < M.n_types := by
  simp [Model.iter_type_pairs, List.mem_flatMap]

/-! Claims C7 and C8: the validation loops -/

/-- Claim C7: per type pair, validation passes when edge and edge-feature
blocks are both absent; when exactly one is absent it fails, with two
distinct errors distinguishing which side was empty; when both are present
it requires equal first dimensions (2-dimensionality of the edge-feature
block is inherent to the `Mat` representation); and a pair with exactly one
absent block makes the whole `check_size_x` fail. -/
theorem claim_C7 {S : Type} [CommSemiring S] :
    (checkEdgePair (R := S) none none = .ok ()) ∧
    (∀ ef : Mat S, checkEdgePair none (some ef) = .error msgEdgeEmpty) ∧
    (∀ e : List (ℕ × ℕ), checkEdgePair (R := S) (some e) none = .error msgEdgeFeatureEmpty) ∧
    msgEdgeEmpty ≠ msgEdgeFeatureEmpty ∧
    (∀ (e : List (ℕ × ℕ)) (ef : Mat S),
        checkEdgePair (some e) (some ef) = .ok () ↔ e.length = ef.rows) ∧
    (∀ (M : Model) (x : Instance S) (k : ℕ),
        k < (x.edges.zip x.edge_features).length →
        ((x.edges.zip x.edge_features).getD k (none, none)).1.isSome
          ≠ ((x.edges.zip x.edge_features).getD k (none, none)).2.isSome →
        check_size_x M x ≠ .ok ()) := by
  refine ⟨rfl, fun _ => rfl, fun _ => rfl, by decide, ?_, ?_⟩
  · intro e ef
    show (if e.length ≠ ef.rows then (Except.error msgEdgeLen : Except String Unit)
          else .ok ()) = .ok () ↔ e.length = ef.rows
    split_ifs with h
    · simp [h]
    · simpa using not_not.mp h
  · intro M x k hk hne hok
    obtain ⟨-, -, -, hpairs, -⟩ := (check_size_x_ok_iff M x).mp hok
    have hmem : (x.edges.zip x.edge_features).getD k (none, none)
        ∈ x.edges.zip x.edge_features := by
      rw [List.getD_eq_getElem _ _ hk]
      exact List.getElem_mem hk
    have := hpairs _ hmem
    rcases hp : ((x.edges.zip x.edge_features).getD k (none, none)).1 with _ | e <;>
      rcases hq : ((x.edges.zip x.edge_features).getD k (none, none)).2 with _ | f <;>
      rw [hp, hq] at this hne
    · exact hne rfl
    · rw [show checkEdgePair (R := S) none (some f) = .error msgEdgeEmpty from rfl] at this
      exact Except.noConfusion this
    · rw [show checkEdgePair (R := S) (some e) none = .error msgEdgeFeatureEmpty from rfl]
        at this
      exact Except.noConfusion this
    · exact hne rfl

/-- Witness: claim C7 applied at a concrete mismatched pair. -/
theorem claim_C7_witness : check_size_x Mex xMismatch ≠ .ok () :=
  claim_C7.2.2.2.2.2 Mex xMismatch 0 (by decide) (by decide)

lemma checkColsPair_error {S : Type} [CommSemiring S] (M : Model) (x : Instance S)
    (t1 t2 : ℕ) (m : String) (h : checkColsPair M x t1 t2 = .error m) :
    m = msgBadCols t1 t2 ∧
      ∃ ef, get_edge_features_by_type M x t1 t2 = some ef ∧
        ef.cols ≠ M.nEdgeFeaturesOf t1 t2 := by
  unfold checkColsPair at h
  rcases hg : get_edge_features_by_type M x t1 t2 with _ | ef <;> rw [hg] at h
  · exact Except.noConfusion h
  · have h2 : (if ef.cols ≠ M.nEdgeFeaturesOf t1 t2
        then (Except.error (msgBadCols t1 t2) : Except String Unit)
        else .ok ()) = .error m := h
    by_cases hc : ef.cols ≠ M.nEdgeFeaturesOf t1 t2
    · rw [if_pos hc] at h2
      injection h2 with hm
      exact ⟨hm.symm, ef, rfl, hc⟩
    · rw [if_neg hc] at h2
      exact Except.noConfusion h2

lemma loopCols_first_error {S : Type} [CommSemiring S] (M : Model) (x : Instance S) :
    ∀ (l : List (ℕ × ℕ)), (∃ p ∈ l, checkColsPair M x p.1 p.2 ≠ .ok ()) →
      ∃ t1, ∃ t2, ∃ ef : Mat S, loopCols M x l = .error (msgBadCols t1 t2) ∧
        get_edge_features_by_type M x t1 t2 = some ef ∧
        ef.cols ≠ M.nEdgeFeaturesOf t1 t2
  | [], h => absurd h (by simp)
  | (t1, t2) :: rest, h => by
      rcases hc : checkColsPair M x t1 t2 with m | u
      · obtain ⟨hm, ef, hef, hcols⟩ := checkColsPair_error M x t1 t2 m hc
        refine ⟨t1, t2, ef, ?_, hef, hcols⟩
        rw [loopCols, hc, excBind_error, hm]
      · cases u
        obtain ⟨p, hp, hne⟩ := h
        rcases List.mem_cons.mp hp with rfl | hp2
        · exact absurd hc hne
        · obtain ⟨u1, u2, ef, hl, hef, hcols⟩ :=
            loopCols_first_error M x rest ⟨p, hp2, hne⟩
          refine ⟨u1, u2, ef, ?_, hef, hcols⟩
          rw [loopCols, hc, excBind_ok, hl]

lemma check_size_x_eq_loopCols {S : Type} [CommSemiring S] (M : Model) (x : Instance S)
    (h1 : x.edges.length = M.n_types ^ 2) (h2 : x.edge_features.length = M.n_types ^ 2)
    (h3 : typedCRF_check_size_x M x = .ok ())
    (h4 : loopPairs (x.edges.zip x.edge_features) = .ok ()) :
    check_size_x M x = loopCols M x M.iter_type_pairs := by
  unfold check_size_x get_edges get_edge_features
  rw [if_neg (by simp [h1]), if_neg (by simp [h2]), h3, excBind_ok, h4, excBind_ok]

/-- Claim C8: a present edge-feature block whose column count equals the
declared count for its type pair passes the column check; any other value
fails it with an error naming that type pair, and makes `check_size_x` fail;
when the preceding checks pass, `check_size_x` reports exactly such an error,
naming an offending pair. -/
theorem claim_C8 {S : Type} [CommSemiring S] :
    (∀ (M : Model) (x : Instance S) (t1 t2 : ℕ) (ef : Mat S),
        get_edge_features_by_type M x t1 t2 = some ef →
        (ef.cols = M.nEdgeFeaturesOf t1 t2 → checkColsPair M x t1 t2 = .ok ()) ∧
        (ef.cols ≠ M.nEdgeFeaturesOf t1 t2 →
          checkColsPair M x t1 t2 = .error (msgBadCols t1 t2))) ∧
    (∀ (M : Model) (x : Instance S) (t1 t2 : ℕ) (ef : Mat S),
        t1 < M.n_types → t2 < M.n_types →
        get_edge_features_by_type M x t1 t2 = some ef →
        ef.cols ≠ M.nEdgeFeaturesOf t1 t2 →
        check_size_x M x ≠ .ok ()) ∧
    (∀ (M : Model) (x : Instance S),
        x.edges.length = M.n_types ^ 2 → x.edge_features.length = M.n_types ^ 2 →
        typedCRF_check_size_x M x = .ok () →
        loopPairs (x.edges.zip x.edge_features) = .ok () →
        (∃ p ∈ M.iter_type_pairs, checkColsPair M x p.1 p.2 ≠ .ok ()) →
        ∃ t1, ∃ t2, ∃ ef : Mat S, check_size_x M x = .error (msgBadCols t1 t2) ∧
          get_edge_features_by_type M x t1 t2 = some ef ∧
          ef.cols ≠ M.nEdgeFeaturesOf t1 t2) := by
  refine ⟨?_, ?_, ?_⟩
  · intro M x t1 t2 ef hg
    constructor
    · intro h
      unfold checkColsPair
      rw [hg]
      show (if ef.cols ≠ M.nEdgeFeaturesOf t1 t2
          then (Except.error (msgBadCols t1 t2) : Except String Unit)
          else .ok ()) = .ok ()
      rw [if_neg (not_not.mpr h)]
    · intro h
      unfold checkColsPair
      rw [hg]
      show (if ef.cols ≠ M.nEdgeFeaturesOf t1 t2
          then (Except.error (msgBadCols t1 t2) : Except String Unit)
          else .ok ()) = .error (msgBadCols t1 t2)
      rw [if_pos h]
  · intro M x t1 t2 ef ht1 ht2 hg hcols hok
    obtain ⟨-, -, -, -, hcolsloop⟩ := (check_size_x_ok_iff M x).mp hok
    have hmem : (t1, t2) ∈ M.iter_type_pairs := (mem_iter_type_pairs M t1 t2).mpr ⟨ht1, ht2⟩
    have hthis := hcolsloop _ hmem
    unfold checkColsPair at hthis
    rw [hg] at hthis
    have h2 : (if ef.cols ≠ M.nEdgeFeaturesOf t1 t2
        then (Except.error (msgBadCols t1 t2) : Except String Unit)
        else .ok ()) = .ok () := hthis
    rw [if_pos hcols] at h2
    exact Except.noConfusion h2
  · intro M x h1 h2 h3 h4 hbad
    obtain ⟨t1, t2, ef, hl, hef, hcols⟩ := loopCols_first_error M x M.iter_type_pairs hbad
    exact ⟨t1, t2, ef, by rw [check_size_x_eq_loopCols M x h1 h2 h3 h4, hl], hef, hcols⟩

/-- Witness: claim C8 applied at a concrete bad-column instance. -/
theorem claim_C8_witness :
    checkColsPair Mex xBadCols 0 0 = .error (msgBadCols 0 0) ∧
    check_size_x Mex xBadCols ≠ .ok () :=
  ⟨(claim_C8.1 Mex xBadCols 0 0 (zerosM ℤ 0 3) rfl).2 (by decide),
   claim_C8.2.1 Mex xBadCols 0 0 (zerosM ℤ 0 3) (by decide) (by decide) rfl (by decide)⟩

/-! Claims C5 and C6: pairwise potentials -/

/-- Claim C6: a weight vector whose length differs from `size_joint_feature`
makes `get_pairwise_potentials` fail with the weight-length error before
anything else is examined — the result is the weight-check error for every
instance, valid or not. -/
theorem claim_C6 {S : Type} [CommSemiring S] (M : Model) (x : Instance S) (w : List S)
    (h : w.length ≠ M.size_joint_feature) :
    get_pairwise_potentials M x w = .error "w has wrong shape" := by
  unfold get_pairwise_potentials check_size_w
  rw [if_pos h, excBind_error]

/-- Witness: claim C6 at a 39-long weight vector for the example model. -/
theorem claim_C6_witness :
    get_pairwise_potentials Mex Xex (List.replicate 39 (1 : ℤ)) = .error "w has wrong shape" :=
  claim_C6 Mex Xex (List.replicate 39 (1 : ℤ)) (by decide)

/-- Claim C5 fails on the code: `_get_pairwise_potentials` slices the weight
vector at `n_states * n_features` — the product of the across-type totals,
25 for the example model — not at the unary block size `size_unaries = 12`,
and its `np.dot` against the raw per-pair block list cannot produce the
per-edge potential stack: on the valid example instance and a weight vector
of the correct total length 40 the call fails instead of returning per-edge
potentials. -/
theorem claim_C5_code_bug :
    Mex.n_states * Mex.n_features = 25 ∧
    Mex.size_unaries = 12 ∧
    Mex.n_states * Mex.n_features ≠ Mex.size_unaries ∧
    check_size_w Mex w40ex = .ok () ∧
    check_size_x Mex Xex = .ok () ∧
    get_pairwise_potentials Mex Xex w40ex
      = .error "ValueError: setting an array element with a sequence" :=
  ⟨by decide, by decide, by decide, by decide, by decide, rfl⟩

/-! Lengths of the ravelled accumulators -/

lemma ravel_length (a : Mat R) : a.ravel.length = a.rows * a.cols := by
  unfold Mat.ravel
  rw [List.length_flatMap]
  simp [Function.comp_def, List.map_const', smul_eq_mul]

lemma diagBlocks_length (a : Mat R) :
    ∀ (s f : List ℕ) (i0 j0 : ℕ), s.length = f.length →
      i0 + s.sum ≤ a.rows → j0 + f.sum ≤ a.cols →
      (diagBlocksRavel a ((i0, j0) :: (cumsumFrom i0 s).zip (cumsumFrom j0 f))).length
        = (List.zipWith (· * ·) s f).sum
  | [], [], i0, j0, _, _, _ => rfl
  | [], _ :: _, _, _, h, _, _ => by simp at h
  | _ :: _, [], _, _, h, _, _ => by simp at h
  | x :: s, y :: f, i0, j0, h, hr, hc => by
      rw [cumsumFrom, cumsumFrom, List.zip_cons_cons]
      show ((Mat.sub a i0 (i0 + x) j0 (j0 + y)).ravel
          ++ diagBlocksRavel a ((i0 + x, j0 + y) :: (cumsumFrom (i0 + x) s).zip
               (cumsumFrom (j0 + y) f))).length = _
      rw [List.length_append, ravel_length,
          diagBlocks_length a s f (i0 + x) (j0 + y) (by simpa using h)
            (by simp at hr ⊢; omega) (by simp at hc ⊢; omega)]
      have hrow : (Mat.sub a i0 (i0 + x) j0 (j0 + y)).rows = x := by
        simp only [Mat.sub]
        simp at hr
        omega
      have hcol : (Mat.sub a i0 (i0 + x) j0 (j0 + y)).cols = y := by
        simp only [Mat.sub]
        simp at hc
        omega
      rw [hrow, hcol, List.zipWith_cons_cons, List.sum_cons]

lemma block_ravel_length (a : Mat R) (s f : List ℕ) (h : s.length = f.length)
    (hr : s.sum ≤ a.rows) (hc : f.sum ≤ a.cols) :
    (block_ravel a ((0, 0) :: (cumsum s).zip (cumsum f))).length
      = (List.zipWith (· * ·) s f).sum := by
  rw [block_ravel_eq_diag]
  exact diagBlocks_length a s f 0 0 h (by simpa using hr) (by simpa using hc)

lemma zipWith_mul_map {α : Type} (g h : α → ℕ) :
    ∀ l : List α, List.zipWith (· * ·) (l.map g) (l.map h) = l.map (fun p => g p * h p)
  | [] => rfl
  | a :: l => by
      rw [List.map_cons, List.map_cons, List.zipWith_cons_cons, List.map_cons,
          zipWith_mul_map g h l]

lemma pair_products_sum (M : Model) (h : M.WF) :
    (M.iter_type_pairs.map fun p => M.nStatesOf p.1 * M.nStatesOf p.2).sum
      = M.n_states ^ 2 := by
  rw [iter_pairs_map_sum, Model.n_states, sq, list_sum_eq_range, h.1, ← Finset.sum_mul_sum]
  rfl

lemma n_edge_features_eq_flatten_sum (M : Model) :
    M.n_edge_features = M.a_n_edge_features.flatten.sum :=
  (List.sum_flatten).symm

lemma size_pairwise_eq_map_sum (M : Model) :
    M.size_pairwise = (M.iter_type_pairs.map
      (fun p => M.nEdgeFeaturesOf p.1 p.2 * M.nStatesOf p.1 * M.nStatesOf p.2)).sum := by
  rw [Model.size_pairwise, foldl_add_sum, zero_add]

lemma seqSome_isSome {α β : Type} :
    ∀ (l : List (α × Option β)), (∀ p ∈ l, p.2.isSome) → ∃ r, seqSome l = some r
  | [], _ => ⟨[], rfl⟩
  | (a, ob) :: rest, h => by
      rcases ob with _ | b
      · exact absurd (h (a, none) (List.mem_cons_self _ _)) (by simp)
      · obtain ⟨r, hr⟩ := seqSome_isSome rest (fun p hp => h p (List.mem_cons_of_mem _ hp))
        exact ⟨(a, b) :: r, by simp [seqSome, hr]⟩

lemma jf_assemble_ok {S : Type} [CommSemiring S] (M : Model) (x : Instance S) (um pw : Mat S)
    (hWF : M.WF) (hstd : M.bPW_std = true)
    (hall : ∀ o ∈ x.node_features, o.isSome)
    (hum : um.cols = M.n_states) (hpw : pw.cols = M.n_states ^ 2) :
    ∃ v, jf_assemble M x um pw = .ok v ∧ v.length = M.size_joint_feature := by
  obtain ⟨pairs, hpairs⟩ :=
    seqSome_isSome (M.a_feature_slice_by_typ.zip (get_node_features x))
      (fun p hp => hall p.2 (List.of_mem_zip hp).2)
  have hanf : stackNodeFeatures M x (nNodes x)
      = .ok ⟨nNodes x, M.n_features, stackNFEnt pairs 0⟩ := by
    unfold stackNodeFeatures
    rw [hpairs]
  have h1 : (block_ravel (Mat.matmul um.transpose ⟨nNodes x, M.n_features, stackNFEnt pairs 0⟩)
      ((0, 0) :: (cumsum M.l_n_states).zip (cumsum M.l_n_features))).length
        = M.size_unaries := by
    apply block_ravel_length _ M.l_n_states M.l_n_features (by rw [hWF.1, hWF.2.1])
    · show M.l_n_states.sum ≤ um.cols
      rw [hum]
      rfl
    · rfl
  have h2 : (block_ravel (Mat.matmul (stackEdgeFeatures M x (nEdges x)).transpose pw)
      ((0, 0) :: (cumsum M.a_n_edge_features.flatten).zip
        (cumsum (M.iter_type_pairs.map fun p => M.nStatesOf p.1 * M.nStatesOf p.2)))).length
        = M.size_pairwise := by
    rw [block_ravel_length _ M.a_n_edge_features.flatten
          (M.iter_type_pairs.map fun p => M.nStatesOf p.1 * M.nStatesOf p.2)
          (by rw [flatten_eq_iter_pairs_map M hWF, List.length_map, List.length_map])
          (by show _ ≤ M.n_edge_features; rw [n_edge_features_eq_flatten_sum])
          (by show _ ≤ pw.cols; rw [hpw, pair_products_sum M hWF]),
        flatten_eq_iter_pairs_map M hWF, zipWith_mul_map, size_pairwise_eq_map_sum]
    exact congrArg List.sum (List.map_congr_left fun p _ => (mul_assoc _ _ _).symm)
  unfold jf_assemble
  rw [hanf, excBind_ok]
  simp only [hstd, if_true]
  rw [if_neg (not_not.mpr h1), if_neg (not_not.mpr h2),
      if_neg (not_not.mpr (by rw [List.length_append, h1, h2]; rfl))]
  exact ⟨_, rfl, by rw [List.length_append, h1, h2]; rfl⟩

/-! Claims C1 and C10: joint_feature success length and the absent
node-feature block crash -/

/-- Claim C1, amended: for a valid instance all of whose node-feature blocks
are present and a valid discrete labeling, `joint_feature` returns a flat
vector of length exactly `size_unaries + size_pairwise`. -/
theorem claim_C1 {S : Type} [CommSemiring S] (M : Model) (x : Instance S) (ly : List (List ℕ))
    (hWF : M.WF) (hstd : M.bPW_std = true)
    (hx : check_size_x M x = .ok ()) (hy : check_size_y M x (.discrete ly) = .ok ())
    (hall : ∀ o ∈ x.node_features, o.isSome) :
    ∃ v, joint_feature M x (.discrete ly) = .ok v ∧ v.length = M.size_joint_feature := by
  unfold joint_feature
  rw [hx, excBind_ok, hy, excBind_ok]
  show ∃ v, jf_assemble M x (oneHotUnary M x ly (nNodes x)) (oneHotPw M x ly (nEdges x))
      = .ok v ∧ v.length = M.size_joint_feature
  exact jf_assemble_ok M x _ _ hWF hstd hall rfl rfl

/-- Witness: claim C1 applied to the example model and instance. -/
theorem claim_C1_witness :
    Mex.WF ∧ Mex.bPW_std = true ∧ check_size_x Mex Xex = .ok () ∧
    check_size_y Mex Xex (.discrete Yex) = .ok () ∧
    (∀ o ∈ Xex.node_features, o.isSome) ∧
    ∃ v, joint_feature Mex Xex (.discrete Yex) = .ok v ∧
      v.length = Mex.size_joint_feature :=
  ⟨by decide, rfl, by decide, by decide, by decide,
   claim_C1 Mex Xex Yex (by decide) rfl (by decide) (by decide) (by decide)⟩

/-- Counterexample to claim C1 as stated: `XnoneEx` is valid (validation
passes, with an absent node-feature block for a zero-node type, which the
data model allows) and `YnoneEx` is a valid discrete labeling for it, yet
`joint_feature` raises instead of returning a vector. -/
theorem claim_C1_counterexample :
    check_size_x Mex XnoneEx = .ok () ∧
    check_size_y Mex XnoneEx (.discrete YnoneEx) = .ok () ∧
    joint_feature Mex XnoneEx (.discrete YnoneEx)
      = .error "AttributeError: NoneType object has no attribute shape" :=
  ⟨by decide, by decide, rfl⟩

lemma seqSome_eq_none {α β : Type} :
    ∀ (l : List (α × Option β)) (k : ℕ) (hk : k < l.length),
      (l.get ⟨k, hk⟩).2 = none → seqSome l = none
  | (a, ob) :: rest, 0, _, h => by
      cases ob with
      | none => rfl
      | some b => exact Option.noConfusion h
  | (a, ob) :: rest, k + 1, hk, h => by
      have hr := seqSome_eq_none rest k (by simpa using Nat.lt_of_succ_lt_succ hk)
        (by simpa using h)
      cases ob with
      | none => rfl
      | some b => simp [seqSome, hr]

lemma stackNodeFeatures_error {S : Type} [CommSemiring S] (M : Model) (x : Instance S)
    (n t : ℕ) (ht1 : t < M.a_feature_slice_by_typ.length)
    (ht2 : t < x.node_features.length)
    (hnone : x.node_features.getD t none = none) :
    stackNodeFeatures M x n
      = .error "AttributeError: NoneType object has no attribute shape" := by
  unfold stackNodeFeatures
  have hzip : t < (M.a_feature_slice_by_typ.zip (get_node_features x)).length := by
    rw [List.length_zip]
    exact lt_min ht1 ht2
  have hel : ((M.a_feature_slice_by_typ.zip (get_node_features x)).get ⟨t, hzip⟩).2 = none := by
    show ((M.a_feature_slice_by_typ.zip (get_node_features x))[t]).2 = none
    rw [List.getElem_zip]
    show x.node_features[t] = none
    rw [← List.getD_eq_getElem x.node_features none ht2]
    exact hnone
  rw [seqSome_eq_none _ t hzip hel]

/-- Claim C10: the one-hot unary loop of `joint_feature` skips absent
node-feature blocks, but the node-feature stacking step reads every block's
shape with no None guard, so on a validated instance with an absent block
`joint_feature` raises. -/
theorem claim_C10 {S : Type} [CommSemiring S] (M : Model) (x : Instance S)
    (ly : List (List ℕ)) (t : ℕ)
    (hx : check_size_x M x = .ok ()) (hy : check_size_y M x (.discrete ly) = .ok ())
    (ht1 : t < M.a_feature_slice_by_typ.length) (ht2 : t < x.node_features.length)
    (hnone : x.node_features.getD t none = none) :
    (∀ (rest : List (Option (Mat S) × ℕ × List ℕ)) (tsi : ℕ) (yt : List ℕ) (iStart i j : ℕ),
        oneHotUnaryEnt ((none, tsi, yt) :: rest) iStart i j
          = oneHotUnaryEnt rest iStart i j) ∧
    joint_feature M x (.discrete ly)
      = .error "AttributeError: NoneType object has no attribute shape" := by
  refine ⟨fun _ _ _ _ _ _ => rfl, ?_⟩
  unfold joint_feature
  rw [hx, excBind_ok, hy, excBind_ok]
  show jf_assemble M x (oneHotUnary M x ly (nNodes x)) (oneHotPw M x ly (nEdges x)) = _
  unfold jf_assemble
  rw [stackNodeFeatures_error M x (nNodes x) t ht1 ht2 hnone, excBind_error]

/-- Witness: claim C10 applied to the concrete absent-block instance. -/
theorem claim_C10_witness :
    joint_feature Mex XnoneEx (.discrete YnoneEx)
      = .error "AttributeError: NoneType object has no attribute shape" :=
  (claim_C10 Mex XnoneEx YnoneEx 1 (by decide) (by decide) (by decide) (by decide) rfl).2

/-! Entrywise equality of matrices within their shape, and congruence of the
assembly tail under it -/

lemma entEq_refl (a : Mat R) : EntEq a a := ⟨rfl, rfl, fun _ _ _ _ => rfl⟩

lemma transpose_entEq {a b : Mat R} (h : EntEq a b) :
    EntEq a.transpose b.transpose :=
  ⟨h.2.1, h.1, fun i hi j hj => h.2.2 j hj i hi⟩

lemma matmul_entEq {a a' b b' : Mat R} (ha : EntEq a a') (hb : EntEq b b')
    (hab : a.cols = b.rows) : EntEq (a.matmul b) (a'.matmul b') := by
  obtain ⟨har, hac, hae⟩ := ha
  obtain ⟨hbr, hbc, hbe⟩ := hb
  refine ⟨har, hbc, fun i hi j hj => ?_⟩
  show (∑ k ∈ Finset.range a.cols, a.ent i k * b.ent k j)
      = ∑ k ∈ Finset.range a'.cols, a'.ent i k * b'.ent k j
  rw [← hac]
  refine Finset.sum_congr rfl fun k hk => ?_
  have hk2 := Finset.mem_range.mp hk
  rw [hae i hi k hk2, hbe k (hab ▸ hk2) j hj]

lemma sub_entEq {a b : Mat R} (h : EntEq a b) (i0 i1 j0 j1 : ℕ) :
    EntEq (a.sub i0 i1 j0 j1) (b.sub i0 i1 j0 j1) := by
  obtain ⟨hr, hc, he⟩ := h
  refine ⟨by simp [Mat.sub, hr], by simp [Mat.sub, hc], fun i hi j hj => ?_⟩
  show a.ent (min i0 a.rows + i) (min j0 a.cols + j)
      = b.ent (min i0 b.rows + i) (min j0 b.cols + j)
  rw [← hr, ← hc]
  simp only [Mat.sub] at hi hj
  refine he _ ?_ _ ?_
  · have h1 := Nat.min_le_right i1 a.rows
    omega
  · have h1 := Nat.min_le_right j1 a.cols
    omega

lemma ravel_eq_of_entEq {a b : Mat R} (h : EntEq a b) : a.ravel = b.ravel := by
  obtain ⟨hr, hc, he⟩ := h
  unfold Mat.ravel
  rw [← hr, ← hc]
  refine List.flatMap_congr fun i hi => List.map_congr_left fun j hj => ?_
  exact he i (List.mem_range.mp hi) j (List.mem_range.mp hj)

lemma block_ravel_congr {a b : Mat R} (h : EntEq a b) (lij : List (ℕ × ℕ)) :
    block_ravel a lij = block_ravel b lij := by
  unfold block_ravel
  exact congrArg List.flatten
    (List.map_congr_left fun q _ => ravel_eq_of_entEq (sub_entEq h _ _ _ _))

lemma stackNodeFeatures_ok_shape {S : Type} [CommSemiring S] (M : Model) (x : Instance S)
    (n : ℕ) (m : Mat S) (h : stackNodeFeatures M x n = .ok m) :
    m.rows = n ∧ m.cols = M.n_features := by
  unfold stackNodeFeatures at h
  rcases hs : seqSome (M.a_feature_slice_by_typ.zip (get_node_features x)) with _ | pairs <;>
    rw [hs] at h
  · exact Except.noConfusion h
  · injection h with h2
    rw [← h2]
    exact ⟨rfl, rfl⟩

lemma jf_assemble_congr {S : Type} [CommSemiring S] (M : Model) (x : Instance S)
    {um um' pw pw' : Mat S}
    (hum_r : um.rows = nNodes x) (hpw_r : pw.rows = nEdges x)
    (hu : EntEq um um') (hp : EntEq pw pw') :
    jf_assemble M x um pw = jf_assemble M x um' pw' := by
  unfold jf_assemble
  rcases hnf : stackNodeFeatures M x (nNodes x) with e | anf
  · rw [excBind_error, excBind_error]
  · rw [excBind_ok, excBind_ok]
    obtain ⟨hanfr, -⟩ := stackNodeFeatures_ok_shape M x (nNodes x) anf hnf
    have hravel_u :
        block_ravel (Mat.matmul um.transpose anf)
          ((0, 0) :: (cumsum M.l_n_states).zip (cumsum M.l_n_features))
        = block_ravel (Mat.matmul um'.transpose anf)
          ((0, 0) :: (cumsum M.l_n_states).zip (cumsum M.l_n_features)) :=
      block_ravel_congr
        (matmul_entEq (transpose_entEq hu) (entEq_refl anf)
          (by show um.rows = anf.rows; rw [hum_r, hanfr])) _
    rcases hb : M.bPW_std with _ | _
    · simp only [hb, Bool.false_eq_true, if_false]
      have hravel_p : ∀ lij,
          block_ravel (Mat.matmul pw.transpose (stackEdgeFeatures M x (nEdges x))) lij
          = block_ravel (Mat.matmul pw'.transpose (stackEdgeFeatures M x (nEdges x))) lij :=
        fun lij => block_ravel_congr
          (matmul_entEq (transpose_entEq hp) (entEq_refl _)
            (by show pw.rows = (stackEdgeFeatures M x (nEdges x)).rows; rw [hpw_r]; rfl)) lij
      rw [hravel_u, hravel_p]
    · simp only [hb, if_true]
      have hravel_p : ∀ lij,
          block_ravel (Mat.matmul (stackEdgeFeatures M x (nEdges x)).transpose pw) lij
          = block_ravel (Mat.matmul (stackEdgeFeatures M x (nEdges x)).transpose pw') lij :=
        fun lij => block_ravel_congr
          (matmul_entEq (entEq_refl _) hp
            (by show (stackEdgeFeatures M x (nEdges x)).rows = pw.rows; rw [hpw_r]; rfl)) lij
      rw [hravel_u, hravel_p]

/-! Specification-side one-hot conversion for claim C4 -/

lemma blockLoc_cons_lt {n i : ℕ} (ns : List ℕ) (h : i < n) :
    blockLoc (n :: ns) i = (0, i) := by
  simp [blockLoc, h]

lemma blockLoc_cons_not_lt {n i : ℕ} (ns : List ℕ) (h : ¬ i < n) :
    blockLoc (n :: ns) i
      = ((blockLoc ns (i - n)).1 + 1, (blockLoc ns (i - n)).2) := by
  simp [blockLoc, h]

lemma entEq_trans {a b c : Mat R} (h1 : EntEq a b) (h2 : EntEq b c) : EntEq a c :=
  ⟨h1.1.trans h2.1, h1.2.1.trans h2.2.1, fun i hi j hj =>
    (h1.2.2 i hi j hj).trans (h2.2.2 i (h1.1 ▸ hi) j (h1.2.1 ▸ hj))⟩

lemma offsetsFrom_length (a : ℕ) : ∀ l : List ℕ, (offsetsFrom a l).length = l.length
  | [] => rfl
  | x :: rest => by rw [offsetsFrom, List.length_cons, List.length_cons,
      offsetsFrom_length (a + x) rest]

lemma iter_pairs_length (M : Model) :
    M.iter_type_pairs.length = M.n_types * M.n_types := by
  simp [Model.iter_type_pairs, List.length_flatMap, Function.comp_def,
    List.map_const', smul_eq_mul]

lemma nNodes_eq {S : Type} [CommSemiring S] (x : Instance S) :
    nNodes x = (x.node_features.map optRows).sum := by
  unfold nNodes get_node_features_clean
  rw [List.map_map]
  refine congrArg List.sum (List.map_congr_left fun o _ => ?_)
  rcases o with _ | nf
  · rfl
  · show (if nf.rows = 0 then zerosM S 0 0 else nf).rows = nf.rows
    split_ifs with h
    · rw [h]; rfl
    · rfl

lemma nEdges_eq {S : Type} [CommSemiring S] (x : Instance S) :
    nEdges x = (x.edges.map fun o => (o.getD []).length).sum := by
  unfold nEdges get_edges_clean
  rw [List.map_map]
  rfl

lemma typedCRF_ok_length {S : Type} [CommSemiring S] (M : Model) (x : Instance S)
    (h : typedCRF_check_size_x M x = .ok ()) :
    x.node_features.length = M.n_types := by
  unfold typedCRF_check_size_x at h
  split_ifs at h with h1 h2 <;>
    first
      | exact h1
      | exact not_not.mp h1
      | exact Except.noConfusion h

lemma check_size_y_ok {S : Type} [CommSemiring S] (M : Model) (x : Instance S)
    (ly : List (List ℕ)) (h : check_size_y M x (.discrete ly) = .ok ()) :
    ly.length = x.node_features.length ∧
      ∀ t < x.node_features.length, (ly.getD t []).length = nodeRowsAt x t := by
  unfold check_size_y at h
  have h2 : (if ly.length = x.node_features.length ∧
      ∀ t < x.node_features.length, (ly.getD t []).length = nodeRowsAt x t then
        (Except.ok () : Except String Unit)
      else Except.error "Bad size of labels") = .ok () := h
  split_ifs at h2 with hc <;>
    first
      | exact hc
      | exact Except.noConfusion h2

lemma reshape_ok_of_shape (m : Mat R) (r c : ℕ) (hr : m.rows = r) (hc : m.cols = c) :
    m.reshape r c
      = .ok ⟨r, c, fun i j => m.ent ((i * c + j) / m.cols) ((i * c + j) % m.cols)⟩ := by
  unfold Mat.reshape
  rw [if_pos (by rw [hr, hc])]

lemma oneHotUnaryEnt_eq_spec {S : Type} [CommSemiring S] :
    ∀ (nfs : List (Option (Mat S))) (starts : List ℕ) (lys : List (List ℕ))
      (iStart i j : ℕ),
      starts.length = nfs.length → lys.length = nfs.length →
      i < (nfs.map optRows).sum →
      oneHotUnaryEnt (nfs.zip (starts.zip lys)) iStart (iStart + i) j
        = if j = specUnaryCol starts lys (nfs.map optRows) i then (1 : S) else 0
  | [], _, _, _, i, _, _, _, hi => by simp at hi
  | none :: nfs, [], lys, iStart, i, j, hs, hl, hi => by simp at hs
  | none :: nfs, s :: starts, [], iStart, i, j, hs, hl, hi => by simp at hl
  | none :: nfs, s :: starts, yt :: lys, iStart, i, j, hs, hl, hi => by
      rw [List.zip_cons_cons, List.zip_cons_cons]
      have hcol : specUnaryCol (s :: starts) (yt :: lys) ((none :: nfs).map optRows) i
          = specUnaryCol starts lys (nfs.map optRows) i := by
        unfold specUnaryCol
        rw [List.map_cons, show optRows (none : Option (Mat S)) = 0 from rfl,
            blockLoc_cons_not_lt _ (Nat.not_lt_zero i), Nat.sub_zero]
        rfl
      rw [hcol]
      show oneHotUnaryEnt (nfs.zip (starts.zip lys)) iStart (iStart + i) j = _
      exact oneHotUnaryEnt_eq_spec nfs starts lys iStart i j (by simpa using hs)
        (by simpa using hl) (by simpa [optRows] using hi)
  | some nf :: nfs, [], lys, iStart, i, j, hs, hl, hi => by simp at hs
  | some nf :: nfs, s :: starts, [], iStart, i, j, hs, hl, hi => by simp at hl
  | some nf :: nfs, s :: starts, yt :: lys, iStart, i, j, hs, hl, hi => by
      rw [List.zip_cons_cons, List.zip_cons_cons]
      show (if iStart + i < iStart + nf.rows then
          if iStart ≤ iStart + i ∧ j = s + yt.getD (iStart + i - iStart) 0
          then (1 : S) else 0
        else oneHotUnaryEnt (nfs.zip (starts.zip lys)) (iStart + nf.rows) (iStart + i) j)
        = if j = specUnaryCol (s :: starts) (yt :: lys) ((some nf :: nfs).map optRows) i
          then (1 : S) else 0
      by_cases hlt : i < nf.rows
      · rw [if_pos (by omega)]
        have hcond : (iStart ≤ iStart + i ∧ j = s + yt.getD (iStart + i - iStart) 0)
            ↔ j = s + yt.getD i 0 := by
          rw [Nat.add_sub_cancel_left]
          simp [Nat.le_add_right]
        rw [if_congr hcond rfl rfl]
        have hcol : specUnaryCol (s :: starts) (yt :: lys) ((some nf :: nfs).map optRows) i
            = s + yt.getD i 0 := by
          unfold specUnaryCol
          rw [List.map_cons, show optRows (some nf) = nf.rows from rfl,
              blockLoc_cons_lt _ hlt]
          rfl
        rw [hcol]
      · rw [if_neg (by omega)]
        have hcol : specUnaryCol (s :: starts) (yt :: lys) ((some nf :: nfs).map optRows) i
            = specUnaryCol starts lys (nfs.map optRows) (i - nf.rows) := by
          unfold specUnaryCol
          rw [List.map_cons, show optRows (some nf) = nf.rows from rfl,
              blockLoc_cons_not_lt _ hlt]
          rfl
        rw [hcol, show iStart + i = (iStart + nf.rows) + (i - nf.rows) from by omega]
        exact oneHotUnaryEnt_eq_spec nfs starts lys (iStart + nf.rows) (i - nf.rows) j
          (by simpa using hs) (by simpa using hl)
          (by simp only [List.map_cons, List.sum_cons, optRows] at hi; omega)

lemma oneHotPwEnt_eq_spec {S : Type} [CommSemiring S] (M : Model) (ly : List (List ℕ)) :
    ∀ (prs : List (ℕ × ℕ)) (es : List (Option (List (ℕ × ℕ)))) (starts : List ℕ)
      (iStart i j : ℕ),
      prs.length = es.length → starts.length = es.length →
      i < (es.map fun o => (o.getD []).length).sum →
      oneHotPwEnt M ly (prs.zip (es.zip starts)) iStart (iStart + i) j
        = if j = specPwCol M ly prs es starts i then (1 : S) else 0
  | _, [], _, _, i, _, _, _, hi => by simp at hi
  | [], e :: es, starts, iStart, i, j, hp, hs, hi => by simp at hp
  | p :: prs, none :: es, [], iStart, i, j, hp, hs, hi => by simp at hs
  | p :: prs, none :: es, st :: starts, iStart, i, j, hp, hs, hi => by
      rw [List.zip_cons_cons, List.zip_cons_cons]
      have hcol : specPwCol M ly (p :: prs) (none :: es) (st :: starts) i
          = specPwCol M ly prs es starts i := by
        unfold specPwCol
        rw [List.map_cons,
            show ((none : Option (List (ℕ × ℕ))).getD []).length = 0 from rfl,
            blockLoc_cons_not_lt _ (Nat.not_lt_zero i), Nat.sub_zero]
        rfl
      rw [hcol]
      show oneHotPwEnt M ly (prs.zip (es.zip starts)) iStart (iStart + i) j = _
      exact oneHotPwEnt_eq_spec M ly prs es starts iStart i j (by simpa using hp)
        (by simpa using hs) (by simpa using hi)
  | (t1, t2) :: prs, some es0 :: es, [], iStart, i, j, hp, hs, hi => by simp at hs
  | (t1, t2) :: prs, some es0 :: es, st :: starts, iStart, i, j, hp, hs, hi => by
      rw [List.zip_cons_cons, List.zip_cons_cons]
      show (if iStart + i < iStart + es0.length then
          if iStart ≤ iStart + i ∧
             j = st + M.nStatesOf t2
                   * ((ly.getD t1 []).getD (es0.getD (iStart + i - iStart) (0, 0)).1 0)
                 + ((ly.getD t2 []).getD (es0.getD (iStart + i - iStart) (0, 0)).2 0)
          then (1 : S) else 0
        else oneHotPwEnt M ly (prs.zip (es.zip starts)) (iStart + es0.length) (iStart + i) j)
        = if j = specPwCol M ly ((t1, t2) :: prs) (some es0 :: es) (st :: starts) i
          then (1 : S) else 0
      by_cases hlt : i < es0.length
      · rw [if_pos (by omega)]
        have hcond : (iStart ≤ iStart + i ∧
            j = st + M.nStatesOf t2
                  * ((ly.getD t1 []).getD (es0.getD (iStart + i - iStart) (0, 0)).1 0)
                + ((ly.getD t2 []).getD (es0.getD (iStart + i - iStart) (0, 0)).2 0))
            ↔ j = st + M.nStatesOf t2 * ((ly.getD t1 []).getD (es0.getD i (0, 0)).1 0)
                + ((ly.getD t2 []).getD (es0.getD i (0, 0)).2 0) := by
          rw [Nat.add_sub_cancel_left]
          simp [Nat.le_add_right]
        rw [if_congr hcond rfl rfl]
        have hcol : specPwCol M ly ((t1, t2) :: prs) (some es0 :: es) (st :: starts) i
            = st + M.nStatesOf t2 * ((ly.getD t1 []).getD (es0.getD i (0, 0)).1 0)
                + ((ly.getD t2 []).getD (es0.getD i (0, 0)).2 0) := by
          unfold specPwCol
          rw [List.map_cons, show ((some es0 : Option (List (ℕ × ℕ))).getD []).length
                = es0.length from rfl,
              blockLoc_cons_lt _ hlt]
          rfl
        rw [hcol]
      · rw [if_neg (by omega)]
        have hcol : specPwCol M ly ((t1, t2) :: prs) (some es0 :: es) (st :: starts) i
            = specPwCol M ly prs es starts (i - es0.length) := by
          unfold specPwCol
          rw [List.map_cons, show ((some es0 : Option (List (ℕ × ℕ))).getD []).length
                = es0.length from rfl,
              blockLoc_cons_not_lt _ hlt]
          rfl
        rw [hcol, show iStart + i = (iStart + es0.length) + (i - es0.length) from by omega]
        exact oneHotPwEnt_eq_spec M ly prs es starts (iStart + es0.length) (i - es0.length) j
          (by simpa using hp) (by simpa using hs)
          (by simp only [List.map_cons, List.sum_cons, Option.getD] at hi ⊢; omega)

lemma oneHotUnary_entEq_spec {S : Type} [CommSemiring S] (M : Model) (x : Instance S)
    (ly : List (List ℕ)) (hs : M.l_type_startindex.length = x.node_features.length)
    (hl : ly.length = x.node_features.length) :
    EntEq (oneHotUnary M x ly (nNodes x)) (specUnaryMarginals M x ly) := by
  refine ⟨rfl, rfl, fun i hi j hj => ?_⟩
  have h := oneHotUnaryEnt_eq_spec x.node_features M.l_type_startindex ly 0 i j hs hl
    (by rw [← nNodes_eq]; exact hi)
  rw [Nat.zero_add] at h
  exact h

lemma oneHotPw_entEq_spec {S : Type} [CommSemiring S] (M : Model) (x : Instance S)
    (ly : List (List ℕ)) (hp : M.iter_type_pairs.length = x.edges.length)
    (hs : M.l_edgetype_start_index.length = x.edges.length) :
    EntEq (oneHotPw M x ly (nEdges x)) (specPwMarginals M x ly) := by
  refine ⟨rfl, rfl, fun i hi j hj => ?_⟩
  have h := oneHotPwEnt_eq_spec (S := S) M ly M.iter_type_pairs x.edges
    M.l_edgetype_start_index 0 i j hp hs (by rw [← nEdges_eq]; exact hi)
  rw [Nat.zero_add] at h
  exact h

lemma specUnary_entEq_reshape {S : Type} [CommSemiring S] (M : Model) (x : Instance S)
    (ly : List (List ℕ)) :
    EntEq (specUnaryMarginals M x ly)
      ⟨nNodes x, M.n_states, fun i j => (specUnaryMarginals M x ly).ent
        ((i * M.n_states + j) / (specUnaryMarginals M x ly).cols)
        ((i * M.n_states + j) % (specUnaryMarginals M x ly).cols)⟩ := by
  refine ⟨rfl, rfl, fun i hi j hj => ?_⟩
  have hjn : j < M.n_states := hj
  have hp : 0 < M.n_states := lt_of_le_of_lt (Nat.zero_le j) hjn
  show (specUnaryMarginals M x ly).ent i j
      = (specUnaryMarginals M x ly).ent ((i * M.n_states + j) / M.n_states)
          ((i * M.n_states + j) % M.n_states)
  have hdiv : (i * M.n_states + j) / M.n_states = i := by
    rw [mul_comm, Nat.mul_add_div hp, Nat.div_eq_of_lt hjn, Nat.add_zero]
  have hmod : (i * M.n_states + j) % M.n_states = j := by
    rw [mul_comm i M.n_states, Nat.mul_add_mod, Nat.mod_eq_of_lt hjn]
  rw [hdiv, hmod]

/-- Claim C4: converting a valid discrete labeling to the one-hot marginals
pair of the specification and running the relaxed path gives exactly the
discrete path's feature vector. -/
theorem claim_C4 {S : Type} [CommSemiring S] (M : Model) (x : Instance S)
    (ly : List (List ℕ)) (hWF : M.WF) (hx : check_size_x M x = .ok ())
    (hy : check_size_y M x (.discrete ly) = .ok ()) :
    joint_feature M x (.discrete ly)
      = joint_feature M x
          (.relaxed (specUnaryMarginals M x ly) (specPwMarginals M x ly)) := by
  obtain ⟨he1, he2, htyp, -, -⟩ := (check_size_x_ok_iff M x).mp hx
  have hxlen := typedCRF_ok_length M x htyp
  have hylen := (check_size_y_ok M x ly hy).1
  have hstarts : M.l_type_startindex.length = x.node_features.length := by
    rw [Model.l_type_startindex, offsetsFrom_length, hWF.1, hxlen]
  have hprs : M.iter_type_pairs.length = x.edges.length := by
    rw [iter_pairs_length, he1, pow_two]
  have hst2 : M.l_edgetype_start_index.length = x.edges.length := by
    rw [Model.l_edgetype_start_index, offsetsFrom_length, List.length_map,
        iter_pairs_length, he1, pow_two]
  have hL : joint_feature M x (.discrete ly)
      = jf_assemble M x (oneHotUnary M x ly (nNodes x)) (oneHotPw M x ly (nEdges x)) := by
    unfold joint_feature
    rw [hx, excBind_ok, hy, excBind_ok]
    rfl
  have hresh := reshape_ok_of_shape (specUnaryMarginals M x ly) (nNodes x) M.n_states rfl rfl
  have hR : joint_feature M x
        (.relaxed (specUnaryMarginals M x ly) (specPwMarginals M x ly))
      = jf_assemble M x
          ⟨nNodes x, M.n_states, fun i j => (specUnaryMarginals M x ly).ent
            ((i * M.n_states + j) / (specUnaryMarginals M x ly).cols)
            ((i * M.n_states + j) % (specUnaryMarginals M x ly).cols)⟩
          (specPwMarginals M x ly) := by
    unfold joint_feature
    rw [hx, excBind_ok,
        show check_size_y M x
          (.relaxed (specUnaryMarginals M x ly) (specPwMarginals M x ly)) = .ok () from rfl,
        excBind_ok]
    show ((Mat.reshape (specUnaryMarginals M x ly) (nNodes x) M.n_states).map
        fun umr => (umr, specPwMarginals M x ly)) >>=
          (fun ump => jf_assemble M x ump.1 ump.2) = _
    rw [hresh]
    rfl
  rw [hL, hR]
  exact jf_assemble_congr M x rfl rfl
    (entEq_trans (oneHotUnary_entEq_spec M x ly hstarts hylen)
      (specUnary_entEq_reshape M x ly))
    (oneHotPw_entEq_spec M x ly hprs hst2)

/-- Witness: claim C4 at the example model, instance and labeling. -/
theorem claim_C4_witness :
    joint_feature Mex Xex (.discrete Yex)
      = joint_feature Mex Xex
          (.relaxed (specUnaryMarginals Mex Xex Yex) (specPwMarginals Mex Xex Yex)) :=
  claim_C4 Mex Xex Yex (by decide) (by decide) (by decide)

/-! Claim C9: a type pair with zero edges -/

lemma getD_set_ne {α : Type} (l : List α) (k n : ℕ) (v d : α) (h : k ≠ n) :
    (l.set k v).getD n d = l.getD n d := by
  by_cases hn : n < l.length
  · rw [List.getD_eq_getElem _ _ (by simpa using hn), List.getD_eq_getElem _ _ hn,
        List.getElem_set_ne h]
  · rw [List.getD_eq_default _ _ (by simpa using le_of_not_lt hn),
        List.getD_eq_default _ _ (le_of_not_lt hn)]

lemma getD_set_self {α : Type} (l : List α) (k : ℕ) (v d : α) (h : k < l.length) :
    (l.set k v).getD k d = v := by
  rw [List.getD_eq_getElem _ _ (by simpa using h), List.getElem_set_self]

lemma getD_lt_length {α : Type} (l : List α) (k : ℕ) (v d : α) (hv : v ≠ d)
    (h : l.getD k d = v) : k < l.length := by
  by_contra hk
  rw [List.getD_eq_default _ _ (le_of_not_lt hk)] at h
  exact hv h.symm

lemma pair_index_lt {T a b : ℕ} (ha : a < T) (hb : b < T) : a * T + b < T * T := by
  calc a * T + b < a * T + T := by omega
  _ = (a + 1) * T := by ring
  _ ≤ T * T := Nat.mul_le_mul_right T (Nat.succ_le_of_lt ha)

lemma pair_index_inj {T a b t1 t2 : ℕ} (hb : b < T) (ht2 : t2 < T)
    (h : a * T + b = t1 * T + t2) : a = t1 ∧ b = t2 := by
  have hT : 0 < T := lt_of_le_of_lt (Nat.zero_le b) hb
  have hdiv : ∀ u v : ℕ, v < T → (u * T + v) / T = u := fun u v hv => by
    rw [mul_comm, Nat.mul_add_div hT, Nat.div_eq_of_lt hv, Nat.add_zero]
  have ha : a = t1 := by rw [← hdiv a b hb, ← hdiv t1 t2 ht2, h]
  exact ⟨ha, by subst ha; omega⟩

lemma oneHotPwEnt_lt (M : Model) (ly : List (List ℕ)) :
    ∀ (l : List ((ℕ × ℕ) × Option (List (ℕ × ℕ)) × ℕ)) (iStart i j : ℕ), i < iStart →
      oneHotPwEnt M ly l iStart i j = (0 : R)
  | [], _, _, _, _ => rfl
  | (_, none, _) :: rest, iStart, i, j, h => oneHotPwEnt_lt M ly rest iStart i j h
  | ((t1, t2), some es, st) :: rest, iStart, i, j, h => by
      show (if i < iStart + es.length then
          if iStart ≤ i ∧
             j = st + M.nStatesOf t2 * ((ly.getD t1 []).getD (es.getD (i - iStart) (0, 0)).1 0)
               + ((ly.getD t2 []).getD (es.getD (i - iStart) (0, 0)).2 0)
          then (1 : R) else 0
        else oneHotPwEnt M ly rest (iStart + es.length) i j) = 0
      rw [if_pos (by omega), if_neg (fun hcon => absurd hcon.1 (by omega))]

lemma stackEFEnt_lt :
    ∀ (l : List (Option (Mat R))) (iStart jStart i j : ℕ), i < iStart →
      stackEFEnt l iStart jStart i j = (0 : R)
  | [], _, _, _, _, _ => rfl
  | none :: rest, iStart, jStart, i, j, h => stackEFEnt_lt rest iStart jStart i j h
  | some b :: rest, iStart, jStart, i, j, h => by
      show (if i < iStart + b.rows then
          if iStart ≤ i ∧ jStart ≤ j ∧ j < jStart + b.cols then
            b.ent (i - iStart) (j - jStart)
          else 0
        else stackEFEnt rest (iStart + b.rows) (jStart + b.cols) i j) = 0
      rw [if_pos (by omega), if_neg (fun hcon => absurd hcon.1 (by omega))]

lemma oneHotPwEnt_set_none (M : Model) (ly : List (List ℕ)) :
    ∀ (prs : List (ℕ × ℕ)) (es : List (Option (List (ℕ × ℕ)))) (starts : List ℕ)
      (k iStart i j : ℕ), es.getD k none = some [] →
      oneHotPwEnt M ly (prs.zip ((es.set k none).zip starts)) iStart i j
        = (oneHotPwEnt M ly (prs.zip (es.zip starts)) iStart i j : R)
  | [], _, _, _, _, _, _, _ => by simp [oneHotPwEnt]
  | _ :: _, [], _, _, _, _, _, h => by simp at h
  | _ :: _, _ :: _, [], _, _, _, _, _ => by
      simp [List.zip_nil_right, oneHotPwEnt]
  | (t1, t2) :: prs, e :: es, st :: starts, 0, iStart, i, j, h => by
      have he : e = some [] := h
      subst he
      show oneHotPwEnt M ly (((t1, t2), none, st) :: prs.zip (es.zip starts)) iStart i j
          = oneHotPwEnt M ly (((t1, t2), some [], st) :: prs.zip (es.zip starts)) iStart i j
      show oneHotPwEnt M ly (prs.zip (es.zip starts)) iStart i j
          = (if i < iStart + ([] : List (ℕ × ℕ)).length then
              if iStart ≤ i ∧
                 j = st + M.nStatesOf t2
                       * ((ly.getD t1 []).getD (([] : List (ℕ × ℕ)).getD (i - iStart) (0, 0)).1 0)
                     + ((ly.getD t2 []).getD (([] : List (ℕ × ℕ)).getD (i - iStart) (0, 0)).2 0)
              then (1 : R) else 0
            else oneHotPwEnt M ly (prs.zip (es.zip starts))
              (iStart + ([] : List (ℕ × ℕ)).length) i j)
      by_cases hi : i < iStart
      · rw [if_pos (by simp; omega), if_neg (fun hcon => absurd hcon.1 (by omega)),
            oneHotPwEnt_lt M ly _ iStart i j hi]
      · rw [if_neg (by simp; omega)]
        show _ = oneHotPwEnt M ly (prs.zip (es.zip starts)) (iStart + 0) i j
        rw [Nat.add_zero]
  | p :: prs, e :: es, st :: starts, k + 1, iStart, i, j, h => by
      have h2 : es.getD k none = some [] := h
      show oneHotPwEnt M ly ((p, e, st) :: prs.zip ((es.set k none).zip starts)) iStart i j
          = oneHotPwEnt M ly ((p, e, st) :: prs.zip (es.zip starts)) iStart i j
      rcases e with _ | es0
      · show oneHotPwEnt M ly (prs.zip ((es.set k none).zip starts)) iStart i j
            = oneHotPwEnt M ly (prs.zip (es.zip starts)) iStart i j
        exact oneHotPwEnt_set_none M ly prs es starts k iStart i j h2
      · rcases p with ⟨t1, t2⟩
        show (if i < iStart + es0.length then
            if iStart ≤ i ∧
               j = st + M.nStatesOf t2
                     * ((ly.getD t1 []).getD (es0.getD (i - iStart) (0, 0)).1 0)
                   + ((ly.getD t2 []).getD (es0.getD (i - iStart) (0, 0)).2 0)
            then (1 : R) else 0
          else oneHotPwEnt M ly (prs.zip ((es.set k none).zip starts))
            (iStart + es0.length) i j)
          = (if i < iStart + es0.length then
              if iStart ≤ i ∧
                 j = st + M.nStatesOf t2
                       * ((ly.getD t1 []).getD (es0.getD (i - iStart) (0, 0)).1 0)
                     + ((ly.getD t2 []).getD (es0.getD (i - iStart) (0, 0)).2 0)
              then (1 : R) else 0
            else oneHotPwEnt M ly (prs.zip (es.zip starts)) (iStart + es0.length) i j)
        by_cases hi : i < iStart + es0.length
        · rw [if_pos hi, if_pos hi]
        · rw [if_neg hi, if_neg hi]
          exact oneHotPwEnt_set_none M ly prs es starts k (iStart + es0.length) i j h2

lemma stackEFEnt_set {b b' : Mat R} (hb : b.rows = 0) (hb' : b'.rows = 0)
    (hc : b'.cols = b.cols) :
    ∀ (l : List (Option (Mat R))) (k iStart jStart i j : ℕ), l.getD k none = some b →
      stackEFEnt (l.set k (some b')) iStart jStart i j = stackEFEnt l iStart jStart i j
  | [], _, _, _, _, _, _ => rfl
  | o :: l, 0, iStart, jStart, i, j, h => by
      have ho : o = some b := h
      subst ho
      show (if i < iStart + b'.rows then
          if iStart ≤ i ∧ jStart ≤ j ∧ j < jStart + b'.cols then
            b'.ent (i - iStart) (j - jStart)
          else 0
        else stackEFEnt l (iStart + b'.rows) (jStart + b'.cols) i j)
        = (if i < iStart + b.rows then
            if iStart ≤ i ∧ jStart ≤ j ∧ j < jStart + b.cols then
              b.ent (i - iStart) (j - jStart)
            else 0
          else stackEFEnt l (iStart + b.rows) (jStart + b.cols) i j)
      rw [hb, hb', hc]
      by_cases hi : i < iStart + 0
      · rw [if_pos hi, if_pos hi, if_neg (fun hcon => absurd hcon.1 (by omega)),
            if_neg (fun hcon => absurd hcon.1 (by omega))]
      · rw [if_neg hi, if_neg hi]
  | o :: l, k + 1, iStart, jStart, i, j, h => by
      have h2 : l.getD k none = some b := h
      show stackEFEnt (o :: l.set k (some b')) iStart jStart i j
          = stackEFEnt (o :: l) iStart jStart i j
      rcases o with _ | c
      · show stackEFEnt (l.set k (some b')) iStart jStart i j = stackEFEnt l iStart jStart i j
        exact stackEFEnt_set hb hb' hc l k iStart jStart i j h2
      · show (if i < iStart + c.rows then
            if iStart ≤ i ∧ jStart ≤ j ∧ j < jStart + c.cols then
              c.ent (i - iStart) (j - jStart)
            else 0
          else stackEFEnt (l.set k (some b')) (iStart + c.rows) (jStart + c.cols) i j)
          = (if i < iStart + c.rows then
              if iStart ≤ i ∧ jStart ≤ j ∧ j < jStart + c.cols then
                c.ent (i - iStart) (j - jStart)
              else 0
            else stackEFEnt l (iStart + c.rows) (jStart + c.cols) i j)
        by_cases hi : i < iStart + c.rows
        · rw [if_pos hi, if_pos hi]
        · rw [if_neg hi, if_neg hi]
          exact stackEFEnt_set hb hb' hc l k (iStart + c.rows) (jStart + c.cols) i j h2

lemma colStartsFrom_set {b b' : Mat R} (hc : b'.cols = b.cols) :
    ∀ (l : List (Option (Mat R))) (k j : ℕ), l.getD k none = some b →
      colStartsFrom j (l.set k (some b')) = colStartsFrom j l
  | [], _, _, _ => rfl
  | o :: l, 0, j, h => by
      have ho : o = some b := h
      subst ho
      show j :: colStartsFrom (j + b'.cols) l = j :: colStartsFrom (j + b.cols) l
      rw [hc]
  | o :: l, k + 1, j, h => by
      have h2 : l.getD k none = some b := h
      rcases o with _ | c
      · show colStartsFrom j (l.set k (some b')) = colStartsFrom j l
        exact colStartsFrom_set hc l k j h2
      · show j :: colStartsFrom (j + c.cols) (l.set k (some b'))
            = j :: colStartsFrom (j + c.cols) l
        rw [colStartsFrom_set hc l k (j + c.cols) h2]

lemma checkColsPair_ok_some {S : Type} [CommSemiring S] (M : Model) (x : Instance S)
    (t1 t2 : ℕ) (e : Mat S) (hg : get_edge_features_by_type M x t1 t2 = some e)
    (h : checkColsPair M x t1 t2 = .ok ()) : e.cols = M.nEdgeFeaturesOf t1 t2 := by
  unfold checkColsPair at h
  rw [hg] at h
  have h2 : (if e.cols ≠ M.nEdgeFeaturesOf t1 t2
      then (Except.error (msgBadCols t1 t2) : Except String Unit)
      else .ok ()) = .ok () := h
  by_cases hcc : e.cols ≠ M.nEdgeFeaturesOf t1 t2
  · rw [if_pos hcc] at h2
    exact Except.noConfusion h2
  · exact not_not.mp hcc

lemma checkEdgePair_ok_some_right {S : Type} [CommSemiring S]
    (e : Option (List (ℕ × ℕ))) (ef : Mat S) (h : checkEdgePair e (some ef) = .ok ()) :
    ∃ es, e = some es ∧ es.length = ef.rows := by
  rcases e with _ | es
  · exact Except.noConfusion h
  · have h2 : (if es.length ≠ ef.rows then (Except.error msgEdgeLen : Except String Unit)
        else .ok ()) = .ok () := h
    by_cases hl : es.length ≠ ef.rows
    · rw [if_pos hl] at h2
      exact Except.noConfusion h2
    · exact ⟨es, rfl, not_not.mp hl⟩

lemma checkColsPair_set_ne {S : Type} [CommSemiring S] (M : Model) (x : Instance S)
    (k a b : ℕ) (v : Option (Mat S)) (hne : k ≠ a * M.n_types + b) :
    checkColsPair M (replaceEF x k v) a b = checkColsPair M x a b := by
  unfold checkColsPair get_edge_features_by_type
  exact congrArg
    (fun o => (match o with
      | none => Except.ok ()
      | some ef =>
          if ef.cols ≠ M.nEdgeFeaturesOf a b then Except.error (msgBadCols a b)
          else Except.ok () : Except String Unit))
    (getD_set_ne x.edge_features k (a * M.n_types + b) v none hne)

lemma check_size_x_replaceEF {S : Type} [CommSemiring S] (M : Model) (x : Instance S)
    (k : ℕ) (ef b' : Mat S) (hF : x.edge_features.getD k none = some ef)
    (hrr : b'.rows = ef.rows) (hcc : b'.cols = ef.cols)
    (hok : check_size_x M x = .ok ()) :
    check_size_x M (replaceEF x k (some b')) = .ok () := by
  rw [check_size_x_ok_iff] at hok ⊢
  obtain ⟨h1, h2, ht, hp, hcl⟩ := hok
  have hk : k < x.edge_features.length := getD_lt_length _ _ _ _ (by simp) hF
  have hFel : x.edge_features[k] = some ef := by
    rw [← List.getD_eq_getElem x.edge_features none hk]
    exact hF
  refine ⟨h1, ?_, ht, ?_, ?_⟩
  · show (x.edge_features.set k (some b')).length = M.n_types ^ 2
    rw [List.length_set]
    exact h2
  · simp only [replaceEF]
    intro p hpmem
    obtain ⟨n, hn, hget⟩ := List.mem_iff_getElem.mp hpmem
    have hn1 : n < x.edges.length := by
      rw [List.length_zip] at hn
      omega
    have hn2 : n < x.edge_features.length := by
      rw [List.length_zip, List.length_set] at hn
      omega
    rw [List.getElem_zip] at hget
    have hzmem := List.getElem_mem
      (show n < (x.edges.zip x.edge_features).length by rw [List.length_zip]; omega)
    rw [List.getElem_zip] at hzmem
    have hcheck : checkEdgePair (x.edges[n]) (x.edge_features[n]) = .ok () := hp _ hzmem
    rw [← hget]
    by_cases hnk : n = k
    · subst hnk
      rw [hFel] at hcheck
      obtain ⟨es, hes, hlen⟩ := checkEdgePair_ok_some_right _ _ hcheck
      rw [List.getElem_set_self, hes]
      show (if es.length ≠ b'.rows then (Except.error msgEdgeLen : Except String Unit)
          else .ok ()) = .ok ()
      rw [if_neg (by rw [hrr, hlen]; exact not_not.mpr rfl)]
    · rw [List.getElem_set_ne (Ne.symm hnk)]
      exact hcheck
  · intro p hpmem
    rcases p with ⟨a, b⟩
    by_cases hab : k = a * M.n_types + b
    · have hget2 : get_edge_features_by_type M x a b = some ef := by
        unfold get_edge_features_by_type
        rw [← hab]
        exact hF
      have hcols := checkColsPair_ok_some M x a b ef hget2 (hcl ⟨a, b⟩ hpmem)
      show checkColsPair M (replaceEF x k (some b')) a b = .ok ()
      unfold checkColsPair get_edge_features_by_type
      have hget3 : ((replaceEF x k (some b')).edge_features).getD (a * M.n_types + b) none
          = some b' := by
        show (x.edge_features.set k (some b')).getD (a * M.n_types + b) none = some b'
        rw [← hab]
        exact getD_set_self x.edge_features k (some b') none hk
      rw [hget3]
      show (if b'.cols ≠ M.nEdgeFeaturesOf a b
          then (Except.error (msgBadCols a b) : Except String Unit) else .ok ()) = .ok ()
      rw [if_neg (not_not.mpr (by rw [hcc, hcols]))]
    · rw [checkColsPair_set_ne M x k a b (some b') hab]
      exact hcl ⟨a, b⟩ hpmem

lemma checkColsPair_setPair_ne {S : Type} [CommSemiring S] (M : Model) (x : Instance S)
    (k a b : ℕ) (e : Option (List (ℕ × ℕ))) (v : Option (Mat S))
    (hne : k ≠ a * M.n_types + b) :
    checkColsPair M (setPairBlocks x k e v) a b = checkColsPair M x a b := by
  unfold checkColsPair get_edge_features_by_type
  exact congrArg
    (fun o => (match o with
      | none => Except.ok ()
      | some ef =>
          if ef.cols ≠ M.nEdgeFeaturesOf a b then Except.error (msgBadCols a b)
          else Except.ok () : Except String Unit))
    (getD_set_ne x.edge_features k (a * M.n_types + b) v none hne)

lemma check_size_x_of_zero_pair {S : Type} [CommSemiring S] (M : Model) (x : Instance S)
    (k t1 t2 : ℕ) (ef : Mat S) (hk : k = t1 * M.n_types + t2)
    (ht1 : t1 < M.n_types) (ht2 : t2 < M.n_types)
    (hE : x.edges.getD k none = some []) (hF : x.edge_features.getD k none = some ef)
    (hr : ef.rows = 0) (hc : ef.cols = M.nEdgeFeaturesOf t1 t2)
    (hok : check_size_x M (setPairBlocks x k none none) = .ok ()) :
    check_size_x M x = .ok () := by
  rw [check_size_x_ok_iff] at hok ⊢
  obtain ⟨h1, h2, ht, hp, hcl⟩ := hok
  rw [show (setPairBlocks x k none none).edges = x.edges.set k none from rfl,
      List.length_set] at h1
  rw [show (setPairBlocks x k none none).edge_features = x.edge_features.set k none from rfl,
      List.length_set] at h2
  have hkE : k < x.edges.length := getD_lt_length _ _ _ _ (by simp) hE
  have hkF : k < x.edge_features.length := getD_lt_length _ _ _ _ (by simp) hF
  have hEel : x.edges[k] = some [] := by
    rw [← List.getD_eq_getElem x.edges none hkE]
    exact hE
  have hFel : x.edge_features[k] = some ef := by
    rw [← List.getD_eq_getElem x.edge_features none hkF]
    exact hF
  refine ⟨h1, h2, ht, ?_, ?_⟩
  · intro p hpmem
    obtain ⟨n, hn, hget⟩ := List.mem_iff_getElem.mp hpmem
    have hn1 : n < x.edges.length := by
      rw [List.length_zip] at hn
      omega
    have hn2 : n < x.edge_features.length := by
      rw [List.length_zip] at hn
      omega
    rw [List.getElem_zip] at hget
    rw [← hget]
    by_cases hnk : n = k
    · subst hnk
      rw [hEel, hFel]
      show (if ([] : List (ℕ × ℕ)).length ≠ ef.rows
          then (Except.error msgEdgeLen : Except String Unit) else .ok ()) = .ok ()
      rw [if_neg (not_not.mpr (by rw [hr]; rfl))]
    · have hzmem := List.getElem_mem
        (show n < ((x.edges.set k none).zip (x.edge_features.set k none)).length by
          rw [List.length_zip, List.length_set, List.length_set]
          omega)
      rw [List.getElem_zip] at hzmem
      have hcheck := hp _ hzmem
      rw [List.getElem_set_ne (Ne.symm hnk), List.getElem_set_ne (Ne.symm hnk)] at hcheck
      exact hcheck
  · intro p hpmem
    rcases p with ⟨a, b⟩
    obtain ⟨ha, hb⟩ := (mem_iter_type_pairs M a b).mp hpmem
    by_cases hab : k = a * M.n_types + b
    · obtain ⟨rfl, rfl⟩ := pair_index_inj hb ht2 (hab.symm.trans hk)
      show checkColsPair M x a b = .ok ()
      unfold checkColsPair get_edge_features_by_type
      rw [show x.edge_features.getD (a * M.n_types + b) none = some ef from by
        rw [← hab]; exact hF]
      show (if ef.cols ≠ M.nEdgeFeaturesOf a b
          then (Except.error (msgBadCols a b) : Except String Unit) else .ok ()) = .ok ()
      rw [if_neg (not_not.mpr hc)]
    · have hprev := hcl ⟨a, b⟩ hpmem
      rw [checkColsPair_setPair_ne M x k a b none none hab] at hprev
      exact hprev

lemma jf_assemble_eq_of {S : Type} [CommSemiring S] (M : Model) (x xp : Instance S)
    (h1 : stackNodeFeatures M xp (nNodes xp) = stackNodeFeatures M x (nNodes x))
    (h2 : stackEdgeFeatures M xp (nEdges xp) = stackEdgeFeatures M x (nEdges x))
    (um pw : Mat S) : jf_assemble M xp um pw = jf_assemble M x um pw := by
  unfold jf_assemble
  rw [h1, h2]

lemma stackEdgeFeatures_replaceEF {S : Type} [CommSemiring S] (M : Model) (x : Instance S)
    (k : ℕ) (ef b' : Mat S) (hF : x.edge_features.getD k none = some ef)
    (hr : ef.rows = 0) (hr' : b'.rows = 0) (hc' : b'.cols = ef.cols) :
    stackEdgeFeatures M (replaceEF x k (some b')) (nEdges (replaceEF x k (some b')))
      = stackEdgeFeatures M x (nEdges x) := by
  show (⟨nEdges x, M.n_edge_features,
      stackEFEnt (x.edge_features.set k (some b')) 0 0⟩ : Mat S)
    = ⟨nEdges x, M.n_edge_features, stackEFEnt x.edge_features 0 0⟩
  exact congrArg (Mat.mk (nEdges x) M.n_edge_features)
    (funext fun i => funext fun j =>
      stackEFEnt_set hr hr' hc' x.edge_features k 0 0 i j hF)

lemma joint_feature_replaceEF {S : Type} [CommSemiring S] (M : Model) (x : Instance S)
    (y : YLab S) (k : ℕ) (ef b' : Mat S)
    (hF : x.edge_features.getD k none = some ef) (hr : ef.rows = 0)
    (hr' : b'.rows = 0) (hc' : b'.cols = ef.cols)
    (hok : check_size_x M x = .ok ()) :
    joint_feature M x y = joint_feature M (replaceEF x k (some b')) y := by
  have hok' := check_size_x_replaceEF M x k ef b' hF (by rw [hr', hr]) hc' hok
  have hasm : ∀ um pw, jf_assemble M (replaceEF x k (some b')) um pw
      = jf_assemble M x um pw :=
    fun um pw => jf_assemble_eq_of M x (replaceEF x k (some b')) rfl
      (stackEdgeFeatures_replaceEF M x k ef b' hF hr hr' hc') um pw
  unfold joint_feature
  rw [hok, excBind_ok, hok', excBind_ok]
  have hyeq : check_size_y M (replaceEF x k (some b')) y = check_size_y M x y := rfl
  rw [hyeq]
  rcases hcy : check_size_y M x y with e | u
  · rw [excBind_error, excBind_error]
  · cases u
    rw [excBind_ok, excBind_ok]
    rcases y with ⟨ly⟩ | ⟨um, pwm⟩
    · show jf_assemble M x (oneHotUnary M x ly (nNodes x)) (oneHotPw M x ly (nEdges x))
          = jf_assemble M (replaceEF x k (some b'))
              (oneHotUnary M x ly (nNodes x)) (oneHotPw M x ly (nEdges x))
      exact (hasm _ _).symm
    · show ((Mat.reshape um (nNodes x) M.n_states).map fun umr => (umr, pwm)) >>=
          (fun ump => jf_assemble M x ump.1 ump.2)
        = ((Mat.reshape um (nNodes x) M.n_states).map fun umr => (umr, pwm)) >>=
          (fun ump => jf_assemble M (replaceEF x k (some b')) ump.1 ump.2)
      rcases hre : Mat.reshape um (nNodes x) M.n_states with e | umr
      · rfl
      · show jf_assemble M x umr pwm = jf_assemble M (replaceEF x k (some b')) umr pwm
        exact (hasm _ _).symm

/-- Claim C9: a type pair with zero edges, represented by an empty edge
block and a zero-row edge-feature block with the declared column count,
validates whenever the rest does; it contributes zero rows to the
intermediate matrices (the edge count and the pairwise activation matrix
are those of the instance without the pair); the column offsets at which the
other pairs' blocks are stacked do not depend on the pair's row count; and
`joint_feature` is unchanged if the empty block's (vacuous) entries are
replaced arbitrarily. -/
theorem claim_C9 {S : Type} [CommSemiring S] (M : Model) (x : Instance S) (y : YLab S)
    (ly : List (List ℕ)) (k t1 t2 : ℕ) (ef : Mat S)
    (hk : k = t1 * M.n_types + t2) (ht1 : t1 < M.n_types) (ht2 : t2 < M.n_types)
    (hE : x.edges.getD k none = some []) (hF : x.edge_features.getD k none = some ef)
    (hr : ef.rows = 0) (hc : ef.cols = M.nEdgeFeaturesOf t1 t2) :
    (check_size_x M (setPairBlocks x k none none) = .ok () → check_size_x M x = .ok ()) ∧
    nEdges x = nEdges (setPairBlocks x k none none) ∧
    oneHotPw M x ly (nEdges x) = oneHotPw M (setPairBlocks x k none none) ly (nEdges x) ∧
    (∀ (rp : ℕ) (g : ℕ → ℕ → S),
        colStartsFrom 0 ((replaceEF x k (some ⟨rp, ef.cols, g⟩)).edge_features)
          = colStartsFrom 0 x.edge_features) ∧
    (∀ g : ℕ → ℕ → S,
        stackEdgeFeatures M (replaceEF x k (some ⟨0, ef.cols, g⟩))
            (nEdges (replaceEF x k (some ⟨0, ef.cols, g⟩)))
          = stackEdgeFeatures M x (nEdges x)) ∧
    (check_size_x M x = .ok () →
      ∀ g : ℕ → ℕ → S,
        joint_feature M x y
          = joint_feature M (replaceEF x k (some ⟨0, ef.cols, g⟩)) y) := by
  have hkE : k < x.edges.length := getD_lt_length _ _ _ _ (by simp) hE
  have hEel : x.edges[k] = some [] := by
    rw [← List.getD_eq_getElem x.edges none hkE]
    exact hE
  have hmap : (x.edges.set k none).map (fun o => o.getD [])
      = x.edges.map (fun o => o.getD []) := by
    apply List.ext_getElem (by simp)
    intro n h1n h2n
    simp only [List.getElem_map, List.getElem_set]
    by_cases hnk : k = n
    · subst hnk
      rw [if_pos rfl, hEel]
      rfl
    · rw [if_neg hnk]
  refine ⟨check_size_x_of_zero_pair M x k t1 t2 ef hk ht1 ht2 hE hF hr hc, ?_, ?_, ?_, ?_, ?_⟩
  · show ((x.edges.map (fun o => o.getD [])).map List.length).sum
        = (((x.edges.set k none).map (fun o => o.getD [])).map List.length).sum
    rw [hmap]
  · show (⟨nEdges x, M.n_states ^ 2, oneHotPwEnt M ly
        (M.iter_type_pairs.zip (x.edges.zip M.l_edgetype_start_index)) 0⟩ : Mat S)
      = ⟨nEdges x, M.n_states ^ 2, oneHotPwEnt M ly
          (M.iter_type_pairs.zip ((x.edges.set k none).zip M.l_edgetype_start_index)) 0⟩
    exact congrArg (Mat.mk (nEdges x) (M.n_states ^ 2))
      (funext fun i => funext fun j =>
        (oneHotPwEnt_set_none M ly M.iter_type_pairs x.edges
          M.l_edgetype_start_index k 0 i j hE).symm)
  · intro rp g
    show colStartsFrom 0 (x.edge_features.set k (some ⟨rp, ef.cols, g⟩))
        = colStartsFrom 0 x.edge_features
    exact @colStartsFrom_set S _ ef ⟨rp, ef.cols, g⟩ rfl x.edge_features k 0 hF
  · intro g
    exact stackEdgeFeatures_replaceEF M x k ef ⟨0, ef.cols, g⟩ hF hr rfl rfl
  · intro hok g
    exact joint_feature_replaceEF M x y k ef ⟨0, ef.cols, g⟩ hF hr rfl rfl hok

/-- Witness: claim C9 at the example model with the zero-edge (1,0) pair,
replacing the empty block's entries by the constant 7. -/
theorem claim_C9_witness :
    check_size_x Mex X9 = .ok () ∧
    nEdges X9 = nEdges (setPairBlocks X9 2 none none) ∧
    joint_feature Mex X9 (.discrete Yex)
      = joint_feature Mex
          (replaceEF X9 2 (some ⟨0, (zerosM ℤ 0 2).cols, fun _ _ => (7 : ℤ)⟩))
          (.discrete Yex) := by
  have h := claim_C9 Mex X9 (.discrete Yex) Yex 2 1 0 (zerosM ℤ 0 2)
    (by decide) (by decide) (by decide) rfl rfl rfl (by decide)
  exact ⟨h.1 (by decide), h.2.1, h.2.2.2.2.2 (by decide) (fun _ _ => (7 : ℤ))⟩

end PyStruct
